import Mathlib

/-
Verification of the WriteTank orchestration engine (background service worker
and content-script text extraction).  The definitions below are shallow
embeddings of the TypeScript source: strings are Lean `String`s (sequences of
unicode scalars standing in for JS strings), JS objects with string keys are
association lists kept in JS enumeration order, numbers are `Nat`/`Int` with
explicit 32-bit wrapping where the source relies on it, and DOM / network
effects are passed in explicitly as values.
-/

set_option maxRecDepth 8000

namespace WriteTank

/-- Characters removed by JavaScript `String.prototype.trim` (WhiteSpace and
LineTerminator code points). -/
def isJsWs (c : Char) : Bool :=
  c ∈ ['\t', '\n', '\x0b', '\x0c', '\r', ' ', '\u00a0', '\u1680', '\u2000',
    '\u2001', '\u2002', '\u2003', '\u2004', '\u2005', '\u2006', '\u2007',
    '\u2008', '\u2009', '\u200a', '\u2028', '\u2029', '\u202f', '\u205f',
    '\u3000', '\ufeff']

/-- JS `s.trim()` on the character list of a string. -/
def jsTrimL (l : List Char) : List Char :=
  ((l.dropWhile isJsWs).reverse.dropWhile isJsWs).reverse

/-- JS `s.trim()`. -/
def jsTrim (s : String) : String := String.mk (jsTrimL s.data)

/-- Terminal punctuation recognised by `ensureCompleteSentences`
(`const terminals = ['.', '!', '?']`). -/
def isTerm (c : Char) : Bool := c ∈ ['.', '!', '?']

/-- Closing quotes/brackets recognised by `ensureCompleteSentences`
(`const closers = [')', ']', '}', '”', '’', '"', "'"]`). -/
def isCloser (c : Char) : Bool :=
  c ∈ [')', ']', '\x7d', '”', '’', '"', '\x27']

/-- Index of the last character satisfying `p`, if any. -/
def lastIdxP (p : Char → Bool) : List Char → Option Nat
  | [] => none
  | c :: cs =>
    match lastIdxP p cs with
    | some i => some (i + 1)
    | none => if p c then some 0 else none

/-- JS `text.lastIndexOf(c)` for a single-character needle: the greatest index
holding `c`, or `-1`. -/
def lastIndexOfChar (c : Char) (s : List Char) : Int :=
  match lastIdxP (fun x => x = c) s with
  | some i => (i : Int)
  | none => -1

/-- `ensureCompleteSentences` from `background.ts`: keep the text up to the
last terminal punctuation mark, extended over immediately following closing
quotes/brackets, then `trim()`; if there is no terminal mark (or the text is
empty) return it unchanged. -/
def ensureCompleteSentencesL (text : List Char) : List Char :=
  if text = [] then text
  else
    let last := max (max (lastIndexOfChar '.' text) (lastIndexOfChar '!' text))
      (lastIndexOfChar '?' text)
    if last = -1 then text
    else
      let e := last.toNat + 1 + ((text.drop (last.toNat + 1)).takeWhile isCloser).length
      jsTrimL (text.take e)

/-- String-level wrapper for `ensureCompleteSentences`. -/
def ensureCompleteSentences (text : String) : String :=
  String.mk (ensureCompleteSentencesL text.data)

/-- Boolean prefix test on character lists. -/
def listPre : List Char → List Char → Bool
  | [], _ => true
  | _ :: _, [] => false
  | p :: ps, c :: cs => p = c && listPre ps cs

/-- Scanner for counting the non-overlapping occurrences of `pat`, as the JS
global-regex match of a literal pattern does: after a match the scan resumes
past the matched text (`skip` pending positions still to be jumped over). -/
def countOccsAux (pat : List Char) : List Char → Nat → Nat
  | [], _ => 0
  | _ :: rest, skip + 1 => countOccsAux pat rest skip
  | c :: rest, 0 =>
    if listPre pat (c :: rest) then 1 + countOccsAux pat rest (pat.length - 1)
    else countOccsAux pat rest 0

/-- `(result.match(new RegExp(escapedLiteral, 'g')) || []).length`: the number
of non-overlapping, left-to-right occurrences of the literal `pat`. -/
def countOccs (pat s : List Char) : Nat := countOccsAux pat s 0

/-- The fixed environment list of `ensureLatexCompleteness`. -/
def envs : List String :=
  ["itemize", "enumerate", "description", "equation", "align", "figure", "table"]

/-- The literal text matched by `new RegExp('\\\\begin\\{env\\}', 'g')`. -/
def beginPat (env : String) : List Char := ("\\begin\x7b" ++ env ++ "\x7d").data

/-- The literal text matched by `new RegExp('\\\\end\\{env\\}', 'g')`. -/
def endPat (env : String) : List Char := ("\\end\x7b" ++ env ++ "\x7d").data

/-- JS `str.repeat(n)` on character lists. -/
def repeatList (u : List Char) : Nat → List Char
  | 0 => []
  | n + 1 => u ++ repeatList u n

/-- One iteration of the environment loop in `ensureLatexCompleteness`:
count `\begin{env}` and `\end{env}` occurrences and append the missing
closers (`result += '\n' + `\end{env}`.repeat(missing)`). -/
def elcStep (result : List Char) (env : String) : List Char :=
  let openCount := countOccs (beginPat env) result
  let closeCount := countOccs (endPat env) result
  if closeCount < openCount then
    result ++ '\n' :: repeatList (endPat env) (openCount - closeCount)
  else result

/-- `ensureLatexCompleteness` from `background.ts`: for each environment in
the fixed list, append the missing `\end{...}` markers when opens exceed
closes. -/
def ensureLatexCompletenessL (text : List Char) : List Char :=
  if text = [] then text else envs.foldl elcStep text

/-- String-level wrapper for `ensureLatexCompleteness`. -/
def ensureLatexCompleteness (text : String) : String :=
  String.mk (ensureLatexCompletenessL text.data)

theorem listPre_self_append (p w : List Char) : listPre p (p ++ w) = true := by
  induction p with
  | nil => rfl
  | cons x p ih => simp [listPre, ih]

theorem listPre_append_of (p : List Char) :
    ∀ (a b : List Char), listPre p a = true → listPre p (a ++ b) = true := by
  induction p with
  | nil => intro a b _; rfl
  | cons x p ih =>
    intro a b h
    cases a with
    | nil => simp [listPre] at h
    | cons d a =>
      simp only [listPre, Bool.and_eq_true, decide_eq_true_eq, List.append_eq] at h
      simp [listPre, h.1, ih a b h.2]

theorem listPre_append_left (p : List Char) :
    ∀ (a b : List Char), p.length ≤ a.length → listPre p (a ++ b) = true →
      listPre p a = true := by
  induction p with
  | nil => intro a b _ _; rfl
  | cons x p ih =>
    intro a b hle h
    cases a with
    | nil => simp at hle
    | cons d a =>
      simp only [List.cons_append, listPre, Bool.and_eq_true, decide_eq_true_eq,
        List.append_eq] at h
      simp only [List.length_cons] at hle
      simp [listPre, h.1, ih a b (by omega) h.2]

theorem listPre_append_head (p : List Char) :
    ∀ (a b : List Char), a.length < p.length → listPre p (a ++ b) = true →
      ∃ c, b.head? = some c ∧ c ∈ p := by
  induction p with
  | nil => intro a b h _; simp at h
  | cons x p ih =>
    intro a b hlt h
    cases a with
    | nil =>
      cases b with
      | nil => simp [listPre] at h
      | cons c b =>
        simp only [List.nil_append, listPre, Bool.and_eq_true, decide_eq_true_eq] at h
        exact ⟨c, rfl, by simp [h.1]⟩
    | cons d a =>
      simp only [List.cons_append, listPre, Bool.and_eq_true, decide_eq_true_eq,
        List.append_eq] at h
      simp only [List.length_cons] at hlt
      obtain ⟨c, hc, hcp⟩ := ih a b (by omega) h.2
      exact ⟨c, hc, by simp [hcp]⟩

theorem listPre_rev (p : List Char) :
    ∀ (u w : List Char), u.length ≤ p.length → listPre p (u ++ w) = true →
      listPre u p = true := by
  intro u
  induction u generalizing p with
  | nil => intro w _ _; rfl
  | cons d u ih =>
    intro w hle h
    cases p with
    | nil => simp at hle
    | cons x p =>
      simp only [List.cons_append, listPre, Bool.and_eq_true, decide_eq_true_eq,
        List.append_eq] at h
      simp only [List.length_cons] at hle
      have hx : x = d := h.1
      subst hx
      simp [listPre, ih p w (by omega) h.2]

/-- A match of `p` cannot start inside `a` and extend into `b` when the first
character of `b` does not occur in `p`; the non-overlapping count is then
additive across the boundary. -/
theorem countOccsAux_append (p : List Char) (hp : p ≠ []) (b : List Char)
    (hb : ∀ c, b.head? = some c → c ∉ p) :
    ∀ (a : List Char) (k : Nat), k ≤ a.length →
      countOccsAux p (a ++ b) k = countOccsAux p a k + countOccsAux p b 0 := by
  intro a
  induction a with
  | nil =>
    intro k hk
    have hk0 : k = 0 := by simpa using hk
    subst hk0
    simp [countOccsAux]
  | cons c rest ih =>
    intro k hk
    cases k with
    | succ k =>
      simp only [List.cons_append, countOccsAux, List.append_eq]
      exact ih k (by simp at hk; omega)
    | zero =>
      simp only [List.cons_append, countOccsAux, List.append_eq]
      by_cases hm : listPre p (c :: (rest ++ b)) = true
      · have hm' : listPre p (c :: rest) = true := by
          rcases Nat.lt_or_ge (c :: rest).length p.length with hlt | hge
          · obtain ⟨d, hd, hdp⟩ :=
              listPre_append_head p (c :: rest) b hlt (by simpa using hm)
            exact absurd hdp (hb d hd)
          · exact listPre_append_left p (c :: rest) b hge (by simpa using hm)
        have hlen : p.length - 1 ≤ rest.length := by
          cases p with
          | nil => simp at hp
          | cons x q =>
            by_contra hcon
            have hlt : (c :: rest).length < (x :: q).length := by
              simp only [List.length_cons] at hcon ⊢; omega
            obtain ⟨d, hd, hdp⟩ :=
              listPre_append_head (x :: q) (c :: rest) b hlt (by simpa using hm)
            exact absurd hdp (hb d hd)
        rw [hm, hm']
        simp only [if_true]
        rw [ih (p.length - 1) hlen]
        omega
      · have hm' : listPre p (c :: rest) = false := by
          by_contra hcon
          have : listPre p (c :: rest) = true := by
            cases h : listPre p (c :: rest) with
            | false => exact absurd h hcon
            | true => rfl
          exact hm (by simpa using listPre_append_of p (c :: rest) b this)
        rw [Bool.not_eq_true] at hm
        rw [hm, hm']
        simp only [Bool.false_eq_true, if_false]
        exact ih 0 (Nat.zero_le _)

/-- A pending skip of exactly `x.length` positions walks over `x`. -/
theorem countOccsAux_skip_all (p : List Char) :
    ∀ (x w : List Char), countOccsAux p (x ++ w) x.length = countOccsAux p w 0 := by
  intro x
  induction x with
  | nil => intro w; rfl
  | cons c x ih => intro w; simpa [countOccsAux] using ih w

/-- No match can start at a character different from the head of the
pattern, so a stretch of such characters is scanned without effect. -/
theorem countOccsAux_no_head (p : List Char) (ph : Char) (hp : p.head? = some ph) :
    ∀ (z : List Char), (∀ c ∈ z, c ≠ ph) → ∀ w,
      countOccsAux p (z ++ w) 0 = countOccsAux p w 0 := by
  intro z
  induction z with
  | nil => intro _ w; rfl
  | cons c z ih =>
    intro hz w
    cases p with
    | nil => simp at hp
    | cons x q =>
      have hx : x = ph := by simpa using hp
      have hcc : c ≠ ph := hz c (by simp)
      have hcx : (decide (x = c)) = false := by
        simp [hx]
        intro hcon
        exact absurd hcon.symm hcc
      simp only [List.cons_append, countOccsAux, listPre, hcx, Bool.false_and,
        if_false, List.append_eq]
      exact ih (fun d hd => hz d (by simp [hd])) w

theorem countOccsAux_repeat_self (u : List Char) (hu : u ≠ []) :
    ∀ k, countOccsAux u (repeatList u k) 0 = k := by
  intro k
  induction k with
  | zero => rfl
  | succ k ih =>
    obtain ⟨c, ut, hcu⟩ : ∃ c ut, u = c :: ut := by
      cases u with
      | nil => exact absurd rfl hu
      | cons c ut => exact ⟨c, ut, rfl⟩
    subst hcu
    have h1 : listPre (c :: ut) (c :: (ut ++ repeatList (c :: ut) k)) = true := by
      simpa using listPre_self_append (c :: ut) (repeatList (c :: ut) k)
    simp only [repeatList, List.cons_append, countOccsAux, List.append_eq]
    rw [h1]
    simp only [if_true, List.length_cons, Nat.add_sub_cancel]
    rw [countOccsAux_skip_all (c :: ut) ut (repeatList (c :: ut) k), ih]
    omega

theorem countOccsAux_repeat_ne (p u : List Char)
    (hpu : listPre p u = false) (hup : listPre u p = false)
    (hph : p.head? = some '\\') (huh : u.head? = some '\\')
    (hut : ∀ c ∈ u.tail, c ≠ '\\') :
    ∀ k, countOccsAux p (repeatList u k) 0 = 0 := by
  have hkey : ∀ w, listPre p (u ++ w) = false := by
    intro w
    by_contra hcon
    have h : listPre p (u ++ w) = true := by
      cases h : listPre p (u ++ w) with
      | false => exact absurd h hcon
      | true => rfl
    rcases le_or_lt p.length u.length with hle | hlt
    · have h2 := listPre_append_left p u w hle h
      rw [hpu] at h2
      simp at h2
    · have h2 := listPre_rev p u w (by omega) h
      rw [hup] at h2
      simp at h2
  intro k
  induction k with
  | zero => rfl
  | succ k ih =>
    obtain ⟨c, ut, hcu⟩ : ∃ c ut, u = c :: ut := by
      cases u with
      | nil => simp at huh
      | cons c ut => exact ⟨c, ut, rfl⟩
    subst hcu
    have hkey' : listPre p (c :: (ut ++ repeatList (c :: ut) k)) = false := by
      simpa using hkey (repeatList (c :: ut) k)
    simp only [repeatList, List.cons_append, countOccsAux, List.append_eq]
    rw [hkey']
    simp only [Bool.false_eq_true, if_false]
    have hnb : ∀ d ∈ ut, d ≠ '\\' := by
      intro d hd; exact hut d (by simpa using hd)
    rw [countOccsAux_no_head p '\\' hph ut hnb (repeatList (c :: ut) k), ih]

/-- Appending a `'\n'`-headed block of repeated closers adds exactly its own
occurrences of the repeated pattern and no occurrences of any other
backslash-headed pattern. -/
theorem countOccs_append_chunk_self (u l : List Char) (n : Nat)
    (huh : u.head? = some '\\') (hnl : '\n' ∉ u) :
    countOccs u (l ++ '\n' :: repeatList u n) = countOccs u l + n := by
  have hu : u ≠ [] := by cases u <;> simp_all
  unfold countOccs
  rw [countOccsAux_append u hu ('\n' :: repeatList u n)
    (by intro c hc; simp at hc; subst hc; exact hnl) l 0 (Nat.zero_le _)]
  congr 1
  rw [show ('\n' :: repeatList u n) = ['\n'] ++ repeatList u n by simp]
  rw [countOccsAux_no_head u '\\' huh ['\n'] (by intro c hc; simp at hc; simp [hc]) _]
  exact countOccsAux_repeat_self u hu n

theorem countOccs_append_chunk_ne (p u l : List Char) (n : Nat)
    (hpu : listPre p u = false) (hup : listPre u p = false)
    (hph : p.head? = some '\\') (huh : u.head? = some '\\')
    (hut : ∀ c ∈ u.tail, c ≠ '\\') (hnp : '\n' ∉ p) :
    countOccs p (l ++ '\n' :: repeatList u n) = countOccs p l := by
  have hp : p ≠ [] := by cases p <;> simp_all
  unfold countOccs
  rw [countOccsAux_append p hp ('\n' :: repeatList u n)
    (by intro c hc; simp at hc; subst hc; exact hnp) l 0 (Nat.zero_le _)]
  rw [show ('\n' :: repeatList u n) = ['\n'] ++ repeatList u n by simp]
  rw [countOccsAux_no_head p '\\' hph ['\n'] (by intro c hc; simp at hc; simp [hc]) _]
  rw [countOccsAux_repeat_ne p u hpu hup hph huh hut n]
  omega

/-- Output Repair as the coaching flows apply it: sentence completion first,
then structural-environment completion. -/
def outputRepair (text : String) : String :=
  ensureLatexCompleteness (ensureCompleteSentences text)

theorem envPat_head : ∀ e ∈ envs,
    (beginPat e).head? = some '\\' ∧ (endPat e).head? = some '\\' := by decide

theorem envPat_tail : ∀ e ∈ envs, ∀ c ∈ (endPat e).tail, ¬(c = '\\') := by decide

theorem envPat_nl : ∀ e ∈ envs, '\n' ∉ beginPat e ∧ '\n' ∉ endPat e := by decide

theorem envPat_be : ∀ e ∈ envs, ∀ f ∈ envs,
    listPre (beginPat f) (endPat e) = false ∧
    listPre (endPat e) (beginPat f) = false := by decide

theorem envPat_ee : ∀ e ∈ envs, ∀ f ∈ envs, ¬(e = f) →
    listPre (endPat f) (endPat e) = false ∧
    listPre (endPat e) (endPat f) = false := by decide

theorem envPat_noTerm : ∀ e ∈ envs, ∀ c ∈ endPat e, isTerm c = false := by decide

theorem envs_nodup : envs.Nodup := by decide

theorem countOccs_elcStep_begin (e f : String) (he : e ∈ envs) (hf : f ∈ envs)
    (r : List Char) :
    countOccs (beginPat f) (elcStep r e) = countOccs (beginPat f) r := by
  simp only [elcStep]
  split
  · exact countOccs_append_chunk_ne (beginPat f) (endPat e) r _
      (envPat_be e he f hf).1 (envPat_be e he f hf).2
      (envPat_head f hf).1 (envPat_head e he).2 (envPat_tail e he)
      (envPat_nl f hf).1
  · rfl

theorem countOccs_elcStep_end_ne (e f : String) (he : e ∈ envs) (hf : f ∈ envs)
    (hne : ¬(f = e)) (r : List Char) :
    countOccs (endPat f) (elcStep r e) = countOccs (endPat f) r := by
  simp only [elcStep]
  split
  · exact countOccs_append_chunk_ne (endPat f) (endPat e) r _
      (envPat_ee e he f hf (fun h => hne h.symm)).1
      (envPat_ee e he f hf (fun h => hne h.symm)).2
      (envPat_head f hf).2 (envPat_head e he).2 (envPat_tail e he)
      (envPat_nl f hf).2
  · rfl

theorem countOccs_elcStep_end_self (e : String) (he : e ∈ envs) (r : List Char) :
    countOccs (endPat e) (elcStep r e) =
      max (countOccs (endPat e) r) (countOccs (beginPat e) r) := by
  simp only [elcStep]
  split
  · rename_i hlt
    rw [countOccs_append_chunk_self (endPat e) r _ (envPat_head e he).2
      (envPat_nl e he).2]
    omega
  · rename_i hge
    omega

theorem foldl_elcStep_begin :
    ∀ (l : List String) (r : List Char), (∀ e ∈ l, e ∈ envs) → ∀ f ∈ envs,
      countOccs (beginPat f) (l.foldl elcStep r) = countOccs (beginPat f) r := by
  intro l
  induction l with
  | nil => intro r _ f _; rfl
  | cons e l ih =>
    intro r hl f hf
    rw [List.foldl_cons, ih (elcStep r e) (fun x hx => hl x (by simp [hx])) f hf,
      countOccs_elcStep_begin e f (hl e (by simp)) hf r]

theorem foldl_elcStep_end_notin :
    ∀ (l : List String) (r : List Char), (∀ e ∈ l, e ∈ envs) → ∀ f ∈ envs, f ∉ l →
      countOccs (endPat f) (l.foldl elcStep r) = countOccs (endPat f) r := by
  intro l
  induction l with
  | nil => intro r _ f _ _; rfl
  | cons e l ih =>
    intro r hl f hf hfl
    rw [List.foldl_cons,
      ih (elcStep r e) (fun x hx => hl x (by simp [hx])) f hf (fun h => hfl (by simp [h])),
      countOccs_elcStep_end_ne e f (hl e (by simp)) hf (fun h => hfl (by simp [h])) r]

theorem foldl_elcStep_end_in :
    ∀ (l : List String) (r : List Char), (∀ e ∈ l, e ∈ envs) → l.Nodup → ∀ f ∈ l,
      countOccs (endPat f) (l.foldl elcStep r) =
        max (countOccs (endPat f) r) (countOccs (beginPat f) r) := by
  intro l
  induction l with
  | nil => intro r _ _ f hf; simp at hf
  | cons e l ih =>
    intro r hl hnd f hf
    have he : e ∈ envs := hl e (by simp)
    have hnd' : l.Nodup := (List.nodup_cons.mp hnd).2
    have henl : e ∉ l := (List.nodup_cons.mp hnd).1
    rcases List.mem_cons.mp hf with hfe | hfl
    · subst hfe
      rw [List.foldl_cons,
        foldl_elcStep_end_notin l (elcStep r f) (fun x hx => hl x (by simp [hx])) f
          (hl f (by simp)) henl,
        countOccs_elcStep_end_self f he r]
    · have hfenvs : f ∈ envs := hl f (by simp [hfl])
      have hfne : ¬(f = e) := fun h => henl (h ▸ hfl)
      rw [List.foldl_cons,
        ih (elcStep r e) (fun x hx => hl x (by simp [hx])) hnd' f hfl,
        countOccs_elcStep_end_ne e f he hfenvs hfne r,
        countOccs_elcStep_begin e f he hfenvs r]

theorem elc_counts_begin (t : List Char) (f : String) (hf : f ∈ envs) :
    countOccs (beginPat f) (ensureLatexCompletenessL t) = countOccs (beginPat f) t := by
  unfold ensureLatexCompletenessL
  split
  · rfl
  · exact foldl_elcStep_begin envs t (fun e he => he) f hf

theorem elc_counts_end (t : List Char) (f : String) (hf : f ∈ envs) :
    countOccs (endPat f) (ensureLatexCompletenessL t) =
      max (countOccs (endPat f) t) (countOccs (beginPat f) t) := by
  unfold ensureLatexCompletenessL
  split
  · rename_i ht; subst ht; rfl
  · exact foldl_elcStep_end_in envs t (fun e he => he) envs_nodup f hf

theorem foldl_elcStep_id :
    ∀ (l : List String) (r : List Char),
      (∀ e ∈ l, ¬(countOccs (endPat e) r < countOccs (beginPat e) r)) →
      l.foldl elcStep r = r := by
  intro l
  induction l with
  | nil => intro r _; rfl
  | cons e l ih =>
    intro r hr
    have hstep : elcStep r e = r := by
      simp only [elcStep]
      rw [if_neg (hr e (by simp))]
    rw [List.foldl_cons, hstep, ih r (fun x hx => hr x (by simp [hx]))]

theorem elc_idempotent (t : List Char) :
    ensureLatexCompletenessL (ensureLatexCompletenessL t) = ensureLatexCompletenessL t := by
  have hfacts : ∀ e ∈ envs,
      ¬(countOccs (endPat e) (ensureLatexCompletenessL t) <
        countOccs (beginPat e) (ensureLatexCompletenessL t)) := by
    intro e he
    rw [elc_counts_begin t e he, elc_counts_end t e he]
    omega
  by_cases h : ensureLatexCompletenessL t = []
  · rw [h]
    rfl
  · generalize hx : ensureLatexCompletenessL t = x at h hfacts ⊢
    unfold ensureLatexCompletenessL
    rw [if_neg h]
    exact foldl_elcStep_id envs x hfacts

theorem mem_repeatList (u : List Char) :
    ∀ (n : Nat) (c : Char), c ∈ repeatList u n → c ∈ u := by
  intro n
  induction n with
  | zero => intro c hc; simp [repeatList] at hc
  | succ n ih =>
    intro c hc
    rw [repeatList, List.mem_append] at hc
    rcases hc with h | h
    · exact h
    · exact ih c h

/-- `ensureLatexCompleteness` only ever appends text, and the appended text
starts with `'\n'` and contains no terminal punctuation. -/
theorem foldl_elcStep_append :
    ∀ (l : List String) (r : List Char), (∀ e ∈ l, e ∈ envs) →
      ∃ u, l.foldl elcStep r = r ++ u ∧ (∀ c ∈ u, isTerm c = false) ∧
        (u = [] ∨ u.head? = some '\n') := by
  intro l
  induction l with
  | nil => intro r _; exact ⟨[], by simp, by simp, Or.inl rfl⟩
  | cons e l ih =>
    intro r hl
    have he : e ∈ envs := hl e (by simp)
    have hstep : ∃ u₀, elcStep r e = r ++ u₀ ∧ (∀ c ∈ u₀, isTerm c = false) ∧
        (u₀ = [] ∨ u₀.head? = some '\n') := by
      simp only [elcStep]
      split
      · refine ⟨'\n' :: repeatList (endPat e) _, rfl, ?_, Or.inr rfl⟩
        intro c hc
        rcases List.mem_cons.mp hc with h | h
        · subst h; rfl
        · exact envPat_noTerm e he c (mem_repeatList (endPat e) _ c h)
      · exact ⟨[], by simp, by simp, Or.inl rfl⟩
    obtain ⟨u₀, h₀, hterm₀, hhead₀⟩ := hstep
    obtain ⟨u₁, h₁, hterm₁, hhead₁⟩ := ih (elcStep r e) (fun x hx => hl x (by simp [hx]))
    refine ⟨u₀ ++ u₁, ?_, ?_, ?_⟩
    · rw [List.foldl_cons, h₁, h₀, List.append_assoc]
    · intro c hc
      rcases List.mem_append.mp hc with h | h
      · exact hterm₀ c h
      · exact hterm₁ c h
    · rcases hhead₀ with h | h
      · subst h
        simpa using hhead₁
      · right
        cases u₀ with
        | nil => simp at h
        | cons d u₀ => simpa using h

theorem elc_append (t : List Char) :
    ∃ u, ensureLatexCompletenessL t = t ++ u ∧ (∀ c ∈ u, isTerm c = false) ∧
      (u = [] ∨ u.head? = some '\n') := by
  unfold ensureLatexCompletenessL
  split
  · exact ⟨[], by simp, by simp, Or.inl rfl⟩
  · exact foldl_elcStep_append envs t (fun e he => he)

theorem lastIdxP_none_iff (p : Char → Bool) :
    ∀ (s : List Char), lastIdxP p s = none ↔ ∀ c ∈ s, p c = false := by
  intro s
  induction s with
  | nil => simp [lastIdxP]
  | cons c cs ih =>
    simp only [lastIdxP]
    cases h : lastIdxP p cs with
    | some i =>
      simp only []
      constructor
      · intro hcon; exact absurd hcon (by simp)
      · intro hall
        have : lastIdxP p cs = none := (ih.mpr fun d hd => hall d (by simp [hd]))
        rw [h] at this
        exact absurd this (by simp)
    | none =>
      simp only []
      constructor
      · intro hif
        intro d hd
        rcases List.mem_cons.mp hd with hdc | hdc
        · subst hdc
          by_contra hcon
          rw [show p d = true by cases hp : p d <;> simp_all] at hif
          simp at hif
        · exact (ih.mp h) d hdc
      · intro hall
        rw [show p c = false from hall c (by simp)]
        simp

theorem lastIdxP_some_lt (p : Char → Bool) :
    ∀ (s : List Char) (i : Nat), lastIdxP p s = some i → i < s.length := by
  intro s
  induction s with
  | nil => intro i h; simp [lastIdxP] at h
  | cons c cs ih =>
    intro i h
    simp only [lastIdxP] at h
    cases hcs : lastIdxP p cs with
    | some j =>
      rw [hcs] at h
      simp only [Option.some.injEq] at h
      have := ih j hcs
      simp only [List.length_cons]
      omega
    | none =>
      rw [hcs] at h
      by_cases hp : p c = true
      · rw [hp] at h
        simp at h
        simp [← h]
      · rw [show p c = false by cases hq : p c <;> simp_all] at h
        simp at h

theorem lastIdxP_some_split (p : Char → Bool) :
    ∀ (s : List Char) (i : Nat), lastIdxP p s = some i →
      ∃ a x b, s = a ++ x :: b ∧ a.length = i ∧ p x = true ∧ ∀ c ∈ b, p c = false := by
  intro s
  induction s with
  | nil => intro i h; simp [lastIdxP] at h
  | cons c cs ih =>
    intro i h
    simp only [lastIdxP] at h
    cases hcs : lastIdxP p cs with
    | some j =>
      rw [hcs] at h
      simp only [Option.some.injEq] at h
      obtain ⟨a, x, b, hsplit, hlen, hx, hb⟩ := ih j hcs
      exact ⟨c :: a, x, b, by simp [hsplit], by simp [hlen, ← h], hx, hb⟩
    | none =>
      rw [hcs] at h
      by_cases hp : p c = true
      · rw [hp] at h
        simp only [if_true] at h
        have hi : i = 0 := by simpa using h.symm
        subst hi
        exact ⟨[], c, cs, by simp, rfl, hp, (lastIdxP_none_iff p cs).mp hcs⟩
      · rw [show p c = false by cases hq : p c <;> simp_all] at h
        simp at h

theorem lastIdxP_append (p : Char → Bool) :
    ∀ (a b : List Char), lastIdxP p (a ++ b) =
      (match lastIdxP p b with
       | some j => some (a.length + j)
       | none => lastIdxP p a) := by
  intro a b
  induction a with
  | nil => cases h : lastIdxP p b <;> simp [h, lastIdxP]
  | cons c a ih =>
    cases h : lastIdxP p b with
    | some j =>
      have ih' : lastIdxP p (a ++ b) = some (a.length + j) := by rw [ih, h]
      simp only [List.cons_append, lastIdxP, List.append_eq, ih', List.length_cons,
        Option.some.injEq]
      omega
    | none =>
      have ih' : lastIdxP p (a ++ b) = lastIdxP p a := by rw [ih, h]
      simp only [List.cons_append, lastIdxP, List.append_eq, ih']

/-- Last index of a single character as the source computes it, on a list of
the form `a ++ x :: b` with no occurrence in `b`. -/
theorem lastIdxP_split_eq (p : Char → Bool) (a : List Char) (x : Char) (b : List Char)
    (hx : p x = true) (hb : ∀ c ∈ b, p c = false) :
    lastIdxP p (a ++ x :: b) = some a.length := by
  rw [lastIdxP_append]
  have hxb : lastIdxP p (x :: b) = some 0 := by
    simp only [lastIdxP]
    rw [(lastIdxP_none_iff p b).mpr hb, hx]
    simp
  rw [hxb]
  simp

theorem lastIdxP_split_ne (p : Char → Bool) (a : List Char) (x : Char) (b : List Char)
    (hx : p x = false) (hb : ∀ c ∈ b, p c = false) :
    lastIdxP p (a ++ x :: b) = lastIdxP p a := by
  rw [lastIdxP_append]
  have hxb : lastIdxP p (x :: b) = none := by
    simp only [lastIdxP]
    rw [(lastIdxP_none_iff p b).mpr hb, hx]
    simp
  rw [hxb]

/-- The `max` of the three `lastIndexOf` calls in `ensureCompleteSentences`
computes the last index of any terminal character. -/
theorem maxTerm_eq (s : List Char) :
    max (max (lastIndexOfChar '.' s) (lastIndexOfChar '!' s)) (lastIndexOfChar '?' s) =
      (match lastIdxP isTerm s with
       | some i => (i : Int)
       | none => -1) := by
  cases h : lastIdxP isTerm s with
  | none =>
    have hall := (lastIdxP_none_iff isTerm s).mp h
    have h1 : lastIdxP (fun c => c = '.') s = none := by
      rw [lastIdxP_none_iff]
      intro c hc
      have := hall c hc
      simp only [isTerm] at this
      simp only [decide_eq_false_iff_not]
      intro hcon; subst hcon; simp at this
    have h2 : lastIdxP (fun c => c = '!') s = none := by
      rw [lastIdxP_none_iff]
      intro c hc
      have := hall c hc
      simp only [isTerm] at this
      simp only [decide_eq_false_iff_not]
      intro hcon; subst hcon; simp at this
    have h3 : lastIdxP (fun c => c = '?') s = none := by
      rw [lastIdxP_none_iff]
      intro c hc
      have := hall c hc
      simp only [isTerm] at this
      simp only [decide_eq_false_iff_not]
      intro hcon; subst hcon; simp at this
    simp [lastIndexOfChar, h1, h2, h3]
  | some i =>
    obtain ⟨a, x, b, hsplit, hlen, hx, hb⟩ := lastIdxP_some_split isTerm s i h
    subst hsplit
    have hxcases : x = '.' ∨ x = '!' ∨ x = '?' := by
      simp only [isTerm] at hx
      simpa using hx
    have hbne : ∀ (c : Char), isTerm c = true → ∀ d ∈ b, decide (d = c) = false := by
      intro c hc d hd
      have hdt := hb d hd
      simp only [decide_eq_false_iff_not]
      intro hcon
      subst hcon
      rw [hc] at hdt
      exact absurd hdt (by simp)
    have heq : ∀ (c : Char), isTerm c = true → x = c →
        lastIndexOfChar c (a ++ x :: b) = (a.length : Int) := by
      intro c hc hxc
      unfold lastIndexOfChar
      rw [lastIdxP_split_eq (fun d => decide (d = c)) a x b (by simp [hxc]) (hbne c hc)]
    have hlt : ∀ (c : Char), isTerm c = true → ¬(x = c) →
        lastIndexOfChar c (a ++ x :: b) < (a.length : Int) := by
      intro c hc hne
      unfold lastIndexOfChar
      rw [lastIdxP_split_ne (fun d => decide (d = c)) a x b (by simp [hne]) (hbne c hc)]
      cases hj : lastIdxP (fun d => decide (d = c)) a with
      | none => simp only []; omega
      | some j =>
        have := lastIdxP_some_lt _ a j hj
        simp only []
        omega
    subst hlen
    rcases hxcases with h0 | h0 | h0
    · have e1 := heq '.' (by decide) h0
      have e2 := hlt '!' (by decide) (by subst h0; decide)
      have e3 := hlt '?' (by decide) (by subst h0; decide)
      simp only []
      omega
    · have e1 := hlt '.' (by decide) (by subst h0; decide)
      have e2 := heq '!' (by decide) h0
      have e3 := hlt '?' (by decide) (by subst h0; decide)
      simp only []
      omega
    · have e1 := hlt '.' (by decide) (by subst h0; decide)
      have e2 := hlt '!' (by decide) (by subst h0; decide)
      have e3 := heq '?' (by decide) h0
      simp only []
      omega

theorem term_not_ws (c : Char) (h : isTerm c = true) : isJsWs c = false := by
  simp only [isTerm, List.mem_cons, List.not_mem_nil, or_false, decide_eq_true_eq] at h
  rcases h with h | h | h <;> subst h <;> decide

theorem closer_not_ws (c : Char) (h : isCloser c = true) : isJsWs c = false := by
  simp only [isCloser, List.mem_cons, List.not_mem_nil, or_false, decide_eq_true_eq] at h
  rcases h with h | h | h | h | h | h | h <;> subst h <;> decide

theorem closer_not_term (c : Char) (h : isCloser c = true) : isTerm c = false := by
  simp only [isCloser, List.mem_cons, List.not_mem_nil, or_false, decide_eq_true_eq] at h
  rcases h with h | h | h | h | h | h | h <;> subst h <;> decide

theorem dropWhile_append_neg (p : Char → Bool) (x : Char) (hx : p x = false) :
    ∀ (a b : List Char), List.dropWhile p (a ++ x :: b) = List.dropWhile p a ++ x :: b := by
  intro a b
  induction a with
  | nil => simp [List.dropWhile_cons, hx]
  | cons c a ih =>
    by_cases hc : p c = true
    · simp [List.dropWhile_cons, hc, ih]
    · have hc' : p c = false := by cases h : p c <;> simp_all
      simp [List.dropWhile_cons, hc']

theorem dropWhile_head_false (p : Char → Bool) :
    ∀ (l : List Char) (c : Char), (List.dropWhile p l).head? = some c → p c = false := by
  intro l
  induction l with
  | nil => intro c h; simp [List.dropWhile] at h
  | cons d l ih =>
    intro c h
    by_cases hd : p d = true
    · rw [List.dropWhile_cons] at h
      rw [hd] at h
      simp only [if_true] at h
      exact ih c h
    · have hd' : p d = false := by cases hq : p d <;> simp_all
      rw [List.dropWhile_cons, hd'] at h
      simp only [Bool.false_eq_true, if_false, List.head?_cons, Option.some.injEq] at h
      exact h ▸ hd'

theorem dropWhile_eq_self_of_head (p : Char → Bool) (l : List Char)
    (h : ∀ c, l.head? = some c → p c = false) : List.dropWhile p l = l := by
  cases l with
  | nil => rfl
  | cons c l => simp [List.dropWhile_cons, h c rfl]

theorem takeWhile_append_all (p : Char → Bool) :
    ∀ (a b : List Char), (∀ c ∈ a, p c = true) →
      List.takeWhile p (a ++ b) = a ++ List.takeWhile p b := by
  intro a b
  induction a with
  | nil => intro _; rfl
  | cons c a ih =>
    intro ha
    simp only [List.cons_append, List.takeWhile_cons, ha c (by simp)]
    simp [ih (fun d hd => ha d (by simp [hd]))]

theorem take_takeWhile_length (p : Char → Bool) :
    ∀ (l : List Char), List.take (List.takeWhile p l).length l = List.takeWhile p l := by
  intro l
  induction l with
  | nil => rfl
  | cons c l ih =>
    by_cases hc : p c = true
    · simp [List.takeWhile_cons, hc, ih]
    · have hc' : p c = false := by cases hq : p c <;> simp_all
      simp [List.takeWhile_cons, hc']

theorem mem_of_head? (l : List Char) (c : Char) (h : l.head? = some c) : c ∈ l := by
  cases l with
  | nil => simp at h
  | cons d l =>
    simp only [List.head?_cons, Option.some.injEq] at h
    simp [← h]

theorem getLast?_mem_list (l : List Char) (c : Char) (h : l.getLast? = some c) : c ∈ l := by
  have h' : l.reverse.head? = some c := by rwa [List.head?_reverse]
  exact List.mem_reverse.mp (mem_of_head? l.reverse c h')

theorem jsTrimL_split (a : List Char) (x : Char) (cl : List Char)
    (hx : isJsWs x = false) (hcl : ∀ c ∈ cl, isJsWs c = false) :
    jsTrimL (a ++ x :: cl) = List.dropWhile isJsWs a ++ x :: cl := by
  unfold jsTrimL
  rw [dropWhile_append_neg isJsWs x hx a cl]
  rw [dropWhile_eq_self_of_head isJsWs (List.dropWhile isJsWs a ++ x :: cl).reverse ?hh]
  · exact List.reverse_reverse _
  case hh =>
    intro c hc
    rw [List.head?_reverse] at hc
    have hc' : c ∈ x :: cl := by
      rw [List.getLast?_append_of_ne_nil (List.dropWhile isJsWs a)
        (by simp : (x :: cl) ≠ [])] at hc
      exact getLast?_mem_list _ c hc
    rcases List.mem_cons.mp hc' with h | h
    · subst h; exact hx
    · exact hcl c h

theorem ecs_eq_of_none (s : List Char) (h : lastIdxP isTerm s = none) :
    ensureCompleteSentencesL s = s := by
  simp only [ensureCompleteSentencesL]
  split
  · rfl
  · rw [maxTerm_eq s, h]
    simp

theorem ecs_of_split (a : List Char) (x : Char) (b : List Char)
    (hx : isTerm x = true) (hb : ∀ c ∈ b, isTerm c = false) :
    ensureCompleteSentencesL (a ++ x :: b) =
      jsTrimL (a ++ x :: b.takeWhile isCloser) := by
  have hne : ¬(a ++ x :: b = []) := by simp
  have hidx : lastIdxP isTerm (a ++ x :: b) = some a.length :=
    lastIdxP_split_eq isTerm a x b hx hb
  simp only [ensureCompleteSentencesL]
  rw [if_neg hne, maxTerm_eq, hidx]
  rw [if_neg (by omega : ¬((a.length : Nat) : Int) = -1)]
  have htoNat : (((a.length : Nat) : Int)).toNat = a.length := by simp
  rw [htoNat]
  have hdrop : (a ++ x :: b).drop (a.length + 1) = b := by
    rw [show a ++ x :: b = (a ++ [x]) ++ b by simp]
    rw [show a.length + 1 = (a ++ [x]).length by simp]
    exact List.drop_left (a ++ [x]) b
  rw [hdrop]
  have htake : (a ++ x :: b).take (a.length + 1 + (b.takeWhile isCloser).length)
      = a ++ x :: b.takeWhile isCloser := by
    rw [show a ++ x :: b = (a ++ [x]) ++ b by simp]
    rw [List.take_add]
    rw [show a.length + 1 = (a ++ [x]).length by simp]
    rw [List.take_left, List.drop_left]
    rw [take_takeWhile_length isCloser b]
    simp
  rw [htake]

/-- The output of sentence completion, in the terminal-found case: some
(possibly empty) head text with a non-whitespace first character, the last
terminal mark, then only closers; the output is its own `trim`. -/
theorem ecs_some_shape (s : List Char) (i : Nat) (h : lastIdxP isTerm s = some i) :
    ∃ w x cl, ensureCompleteSentencesL s = w ++ x :: cl ∧ isTerm x = true ∧
      (∀ c ∈ cl, isCloser c = true) ∧
      (∀ c, w.head? = some c → isJsWs c = false) ∧
      jsTrimL (w ++ x :: cl) = w ++ x :: cl := by
  obtain ⟨a, x, b, hsplit, hlen, hx, hb⟩ := lastIdxP_some_split isTerm s i h
  subst hsplit
  rw [ecs_of_split a x b hx hb]
  have hclCl : ∀ c ∈ b.takeWhile isCloser, isCloser c = true :=
    fun c hc => List.mem_takeWhile_imp hc
  have hxws : isJsWs x = false := term_not_ws x hx
  have hclws : ∀ c ∈ b.takeWhile isCloser, isJsWs c = false :=
    fun c hc => closer_not_ws c (hclCl c hc)
  rw [jsTrimL_split a x (b.takeWhile isCloser) hxws hclws]
  refine ⟨List.dropWhile isJsWs a, x, b.takeWhile isCloser, rfl, hx, hclCl, ?_, ?_⟩
  · exact fun c hc => dropWhile_head_false isJsWs a c hc
  · rw [jsTrimL_split (List.dropWhile isJsWs a) x (b.takeWhile isCloser) hxws hclws]
    rw [dropWhile_eq_self_of_head isJsWs _
      (fun c hc => dropWhile_head_false isJsWs a c hc)]

/-- Sentence completion is unaffected by appending terminal-free text that
does not begin with a closer, when applied to its own output. -/
theorem ecs_append_fixed (s : List Char) (i : Nat) (h : lastIdxP isTerm s = some i)
    (u : List Char) (hu : ∀ c ∈ u, isTerm c = false)
    (huh : u = [] ∨ u.head? = some '\n') :
    ensureCompleteSentencesL (ensureCompleteSentencesL s ++ u) =
      ensureCompleteSentencesL s := by
  obtain ⟨w, x, cl, ht, hx, hcl, hwh, hfix⟩ := ecs_some_shape s i h
  rw [ht]
  have hclt : ∀ c ∈ cl, isTerm c = false := fun c hc => closer_not_term c (hcl c hc)
  have hbu : ∀ c ∈ cl ++ u, isTerm c = false := by
    intro c hc
    rcases List.mem_append.mp hc with h0 | h0
    · exact hclt c h0
    · exact hu c h0
  rw [show (w ++ x :: cl) ++ u = w ++ x :: (cl ++ u) by simp]
  rw [ecs_of_split w x (cl ++ u) hx hbu]
  have htw : (cl ++ u).takeWhile isCloser = cl := by
    rw [takeWhile_append_all isCloser cl u hcl]
    have hu0 : u.takeWhile isCloser = [] := by
      rcases huh with h0 | h0
      · subst h0; rfl
      · cases u with
        | nil => rfl
        | cons d u =>
          simp only [List.head?_cons, Option.some.injEq] at h0
          subst h0
          simp [List.takeWhile_cons, show isCloser '\n' = false from by decide]
    rw [hu0]
    simp
  rw [htw, hfix]

/-- Output Repair on character lists (sentence completion, then
environment completion). -/
theorem repairL_idem (l : List Char) :
    ensureLatexCompletenessL (ensureCompleteSentencesL
      (ensureLatexCompletenessL (ensureCompleteSentencesL l))) =
      ensureLatexCompletenessL (ensureCompleteSentencesL l) := by
  obtain ⟨u, hu, hut, huh⟩ := elc_append (ensureCompleteSentencesL l)
  cases hcase : lastIdxP isTerm l with
  | none =>
    have htl : ensureCompleteSentencesL l = l := ecs_eq_of_none l hcase
    have hlf : ∀ c ∈ l, isTerm c = false := (lastIdxP_none_iff isTerm l).mp hcase
    have hall : ∀ c ∈ ensureCompleteSentencesL l ++ u, isTerm c = false := by
      intro c hc
      rcases List.mem_append.mp hc with h0 | h0
      · exact hlf c (htl ▸ h0)
      · exact hut c h0
    have hnone : lastIdxP isTerm (ensureCompleteSentencesL l ++ u) = none :=
      (lastIdxP_none_iff isTerm _).mpr hall
    rw [hu, ecs_eq_of_none _ hnone, ← hu]
    exact elc_idempotent (ensureCompleteSentencesL l)
  | some i =>
    rw [hu, ecs_append_fixed l i hcase u hut huh]
    exact hu


theorem listPre_nil_false (p : List Char) (hp : p ≠ []) : listPre p [] = false := by
  cases p with
  | nil => exact absurd rfl hp
  | cons x q => rfl

theorem countOccs_zero_suffix (p : List Char) (hp : p ≠ []) :
    ∀ l, countOccs p l = 0 → ∀ a b, l = a ++ b → listPre p b = false := by
  intro l
  induction l with
  | nil =>
    intro _ a b hab
    have hb : b = [] := by
      rcases List.append_eq_nil.mp hab.symm with ⟨_, h2⟩
      exact h2
    subst hb
    exact listPre_nil_false p hp
  | cons c rest ih =>
    intro h a b hab
    have hhd : listPre p (c :: rest) = false := by
      cases hq : listPre p (c :: rest) with
      | false => rfl
      | true =>
        exfalso
        unfold countOccs at h
        simp [countOccsAux, hq] at h
    have hrest : countOccs p rest = 0 := by
      unfold countOccs at h ⊢
      simp only [countOccsAux, hhd, Bool.false_eq_true, if_false] at h
      exact h
    cases a with
    | nil =>
      simp only [List.nil_append] at hab
      rw [← hab]
      exact hhd
    | cons d a =>
      simp only [List.cons_append, List.cons.injEq] at hab
      exact ih hrest a b hab.2

theorem countOccs_zero_of_no_match (p : List Char) (hp : p ≠ []) :
    ∀ l, (∀ a b, l = a ++ b → listPre p b = false) → countOccs p l = 0 := by
  intro l
  induction l with
  | nil => intro _; rfl
  | cons c rest ih =>
    intro hall
    have hhd : listPre p (c :: rest) = false := hall [] (c :: rest) rfl
    unfold countOccs
    simp only [countOccsAux, hhd, Bool.false_eq_true, if_false]
    exact ih (fun a b hab => hall (c :: a) b (by simp [hab]))

theorem countOccs_zero_infix (p : List Char) (hp : p ≠ []) (s t pre post : List Char)
    (hs : s = pre ++ t ++ post) (h : countOccs p s = 0) : countOccs p t = 0 := by
  apply countOccs_zero_of_no_match p hp
  intro a b hab
  have hsplit : s = (pre ++ a) ++ (b ++ post) := by
    rw [hs, hab]
    simp
  have hx := countOccs_zero_suffix p hp s h (pre ++ a) (b ++ post) hsplit
  cases hq : listPre p b with
  | false => rfl
  | true =>
    rw [listPre_append_of p b post hq] at hx
    simp at hx

theorem exists_dropWhile_drop (p : Char → Bool) :
    ∀ l : List Char, ∃ k, List.dropWhile p l = l.drop k := by
  intro l
  induction l with
  | nil => exact ⟨0, rfl⟩
  | cons c l ih =>
    by_cases hc : p c = true
    · obtain ⟨k, hk⟩ := ih
      exact ⟨k + 1, by simp [List.dropWhile_cons, hc, hk]⟩
    · have hc' : p c = false := by cases hq : p c <;> simp_all
      exact ⟨0, by simp [List.dropWhile_cons, hc']⟩

theorem jsTrimL_take_drop (x : List Char) :
    ∃ k m, jsTrimL x = List.take m (List.drop k x) := by
  obtain ⟨k, hk⟩ := exists_dropWhile_drop isJsWs x
  obtain ⟨k2, hk2⟩ := exists_dropWhile_drop isJsWs (List.drop k x).reverse
  refine ⟨k, (List.drop k x).reverse.length - k2, ?_⟩
  unfold jsTrimL
  rw [hk, hk2, List.reverse_drop]
  simp

/-- The sentence-completed text always occurs inside the original text. -/
theorem ecs_infix (s : List Char) :
    ∃ pre post, s = pre ++ ensureCompleteSentencesL s ++ post := by
  cases hcase : lastIdxP isTerm s with
  | none =>
    refine ⟨[], [], ?_⟩
    rw [ecs_eq_of_none s hcase]
    simp
  | some i =>
    obtain ⟨a, x, b, hsplit, hlen, hx, hb⟩ := lastIdxP_some_split isTerm s i hcase
    subst hsplit
    rw [ecs_of_split a x b hx hb]
    obtain ⟨k, m, hkm⟩ := jsTrimL_take_drop (a ++ x :: b.takeWhile isCloser)
    rw [hkm]
    refine ⟨List.take k (a ++ x :: b.takeWhile isCloser),
      List.drop m (List.drop k (a ++ x :: b.takeWhile isCloser)) ++
        List.dropWhile isCloser b, ?_⟩
    have hsy : a ++ x :: b =
        (a ++ x :: b.takeWhile isCloser) ++ List.dropWhile isCloser b := by
      rw [show (a ++ x :: b.takeWhile isCloser) ++ List.dropWhile isCloser b =
        a ++ x :: (b.takeWhile isCloser ++ List.dropWhile isCloser b) by simp]
      rw [List.takeWhile_append_dropWhile]
    rw [hsy]
    have h1 : (a ++ x :: List.takeWhile isCloser b) =
        List.take k (a ++ x :: List.takeWhile isCloser b) ++
        (List.take m (List.drop k (a ++ x :: List.takeWhile isCloser b)) ++
         List.drop m (List.drop k (a ++ x :: List.takeWhile isCloser b))) := by
      rw [List.take_append_drop, List.take_append_drop]
    conv_lhs => rw [h1]
    simp only [List.append_assoc]

/-- C3: Output Repair — `ensureCompleteSentences` followed by
`ensureLatexCompleteness` — is idempotent: for every input string, applying
the composed repair twice yields exactly the same string as applying it
once. -/
theorem C3_outputRepair_idempotent (s : String) :
    outputRepair (outputRepair s) = outputRepair s := by
  unfold outputRepair ensureLatexCompleteness ensureCompleteSentences
  exact congrArg String.mk (repairL_idem s.data)

/-- C4 (amended): for text with no `\end{itemize}` whose sentence-completed
form contains `N` occurrences of `\begin{itemize}`, the repaired text contains
exactly `N` `\end{itemize}` markers (all appended by the structural pass).
The count is taken after the sentence-completion pass because that pass can
truncate occurrences of `\begin{itemize}` that follow the last terminal
punctuation mark. -/
theorem C4_itemize_closers (s : String) (n : Nat)
    (hend : countOccs (endPat "itemize") s.data = 0)
    (hbeg : countOccs (beginPat "itemize") (ensureCompleteSentences s).data = n) :
    countOccs (endPat "itemize") (outputRepair s).data = n := by
  have hit : "itemize" ∈ envs := by decide
  obtain ⟨pre, post, hinf⟩ := ecs_infix s.data
  have hend' : countOccs (endPat "itemize") (ensureCompleteSentencesL s.data) = 0 :=
    countOccs_zero_infix (endPat "itemize") (by decide) s.data _ pre post hinf hend
  have hbeg' : countOccs (beginPat "itemize") (ensureCompleteSentencesL s.data) = n :=
    hbeg
  show countOccs (endPat "itemize")
    (ensureLatexCompletenessL (ensureCompleteSentencesL s.data)) = n
  rw [elc_counts_end (ensureCompleteSentencesL s.data) "itemize" hit, hend', hbeg']
  omega

/-- C4 counterexample: `"One. \begin{itemize}"` has one `\begin{itemize}` and
no `\end{itemize}`, yet Output Repair yields `"One."` — the sentence-completion
pass deletes the unmatched `\begin{itemize}`, so the repaired text contains
zero appended `\end{itemize}` markers instead of one. -/
theorem C4_counterexample :
    countOccs (beginPat "itemize") ("One. \\begin\x7bitemize\x7d").data = 1 ∧
    countOccs (endPat "itemize") ("One. \\begin\x7bitemize\x7d").data = 0 ∧
    countOccs (endPat "itemize") (outputRepair "One. \\begin\x7bitemize\x7d").data = 0 ∧
    ¬(countOccs (endPat "itemize")
        (outputRepair "One. \\begin\x7bitemize\x7d").data = 1) := by
  refine ⟨by decide, by decide, by decide, by decide⟩

/-- C4 witness: a concrete run of the amended claim. -/
theorem C4_witness :
    countOccs (endPat "itemize") ("\\begin\x7bitemize\x7d \\item a.").data = 0 ∧
    countOccs (beginPat "itemize")
      (ensureCompleteSentences "\\begin\x7bitemize\x7d \\item a.").data = 1 ∧
    countOccs (endPat "itemize") (outputRepair "\\begin\x7bitemize\x7d \\item a.").data = 1 :=
  ⟨by decide, by decide, C4_itemize_closers "\\begin\x7bitemize\x7d \\item a." 1 (by decide) (by decide)⟩

/-- The fixed fallback text used by every coaching flow when the model output
is empty or whitespace-only. -/
def coachFallback : String := "No substantial issues detected. Keep going!"

/-- The shared tail of the coaching flows in `background.ts`
(`const safeOut = (out && out.trim()) ? out : 'No substantial issues
detected. Keep going!'` followed by sentence completion and environment
completion). -/
def coachFinalize (out : String) : String :=
  let safeOut := if ¬(out = "") ∧ ¬(jsTrim out = "") then out else coachFallback
  outputRepair safeOut

/-- Text the `'coach'` message handler sends back on success, as a function of
the model output. -/
def coachHandlerText (modelOut : String) : String := coachFinalize modelOut

/-- Text the `'coach:expand'` message handler sends back on success. -/
def coachExpandHandlerText (modelOut : String) : String := coachFinalize modelOut

/-- Text the `'run-now'` handler delivers to the view on success. -/
def runNowDeliveredText (streamedOutput : String) : String := coachFinalize streamedOutput

/-- Text the `'writetank:tick'` alarm listener delivers to the view on
success. -/
def alarmTickDeliveredText (modelOut : String) : String := coachFinalize modelOut

/-- C10: in all four coaching flows, a model output that is empty or
whitespace-only is replaced by the fixed fallback string, which Output Repair
leaves unchanged, so a successful coaching pass never delivers an empty
result. -/
theorem C10_empty_output_fallback (out : String) (h : jsTrim out = "") :
    coachHandlerText out = coachFallback ∧
    coachExpandHandlerText out = coachFallback ∧
    runNowDeliveredText out = coachFallback ∧
    alarmTickDeliveredText out = coachFallback ∧
    ¬(coachFallback = "") := by
  have hcf : coachFinalize out = coachFallback := by
    unfold coachFinalize
    rw [if_neg (fun hc => hc.2 h)]
    decide
  exact ⟨hcf, hcf, hcf, hcf, by decide⟩

/-- C10 witness: the whitespace-only model output `"  "`. -/
theorem C10_witness :
    jsTrim "  " = "" ∧ coachHandlerText "  " = coachFallback :=
  ⟨by decide, (C10_empty_output_fallback "  " (by decide)).1⟩


/-- Persisted extension settings (the `Settings` type of `background.ts`). -/
structure Settings where
  endpoint : String
  model : String
  intervalMin : Int
  paused : Bool

/-- A partial settings update (`Partial<Settings>`): present fields override
the stored value under JS object spread. -/
structure SettingsPatch where
  endpoint : Option String
  model : Option String
  intervalMin : Option Int
  paused : Option Bool

/-- `{ ...prev, ...patch }` as performed by `setSettings`. -/
def applyPatch (prev : Settings) (patch : SettingsPatch) : Settings :=
  { endpoint := patch.endpoint.getD prev.endpoint
    model := patch.model.getD prev.model
    intervalMin := patch.intervalMin.getD prev.intervalMin
    paused := patch.paused.getD prev.paused }

/-- `chrome.alarms.clear(name)`: remove every timer with the given name. -/
def clearAlarm (name : String) (al : List (String × Int)) : List (String × Int) :=
  al.filter (fun p => ¬(p.1 = name))

/-- `chrome.alarms.create(name, { periodInMinutes })`. -/
def createAlarm (name : String) (period : Int) (al : List (String × Int)) :
    List (String × Int) :=
  al ++ [(name, period)]

/-- `ensureAlarm` from `background.ts`: always clear the `writetank:tick`
timer, then re-create it exactly when the stored settings are unpaused with a
positive interval. -/
def ensureAlarm (s : Settings) (al : List (String × Int)) : List (String × Int) :=
  let cleared := clearAlarm "writetank:tick" al
  if s.paused = false ∧ s.intervalMin > 0 then
    createAlarm "writetank:tick" s.intervalMin cleared
  else cleared

/-- `setSettings` from `background.ts`: merge the patch over the stored
settings, persist, and re-run `ensureAlarm`; returns the stored settings and
the alarm table afterwards. -/
def setSettings (prev : Settings) (patch : SettingsPatch)
    (al : List (String × Int)) : Settings × List (String × Int) :=
  let s := applyPatch prev patch
  (s, ensureAlarm s al)

/-- Number of `writetank:tick` timers in the alarm table. -/
def tickCount (al : List (String × Int)) : Nat :=
  (al.filter (fun p => p.1 = "writetank:tick")).length

theorem tickCount_clear (al : List (String × Int)) :
    tickCount (clearAlarm "writetank:tick" al) = 0 := by
  unfold tickCount clearAlarm
  induction al with
  | nil => rfl
  | cons p al ih =>
    by_cases hp : p.1 = "writetank:tick"
    · rw [List.filter_cons]
      simp only [hp]
      rw [if_neg (by simp)]
      exact ih
    · rw [List.filter_cons]
      rw [if_pos (by simpa using hp)]
      rw [List.filter_cons]
      simp only [hp]
      rw [if_neg (by simpa using hp)]
      exact ih

theorem tickCount_ensure (s : Settings) (al : List (String × Int)) :
    tickCount (ensureAlarm s al) =
      if s.paused = false ∧ s.intervalMin > 0 then 1 else 0 := by
  unfold ensureAlarm
  split
  · rename_i hcond
    unfold createAlarm tickCount
    rw [List.filter_append]
    simp only [List.length_append]
    have h1 : tickCount (clearAlarm "writetank:tick" al) = 0 := tickCount_clear al
    unfold tickCount at h1
    rw [h1]
    simp
  · rename_i hcond
    exact tickCount_clear al

/-- C8: after every settings change (`setSettings`, which re-runs
`ensureAlarm`), exactly one `writetank:tick` periodic timer exists if and only
if the stored configuration has `paused = false` and `intervalMin > 0`;
otherwise no such timer exists; and at most one exists in every case. -/
theorem C8_scheduler_armed (prev : Settings) (patch : SettingsPatch)
    (al : List (String × Int)) :
    (tickCount (setSettings prev patch al).2 = 1 ↔
      ((setSettings prev patch al).1.paused = false ∧
        (setSettings prev patch al).1.intervalMin > 0)) ∧
    (¬((setSettings prev patch al).1.paused = false ∧
        (setSettings prev patch al).1.intervalMin > 0) →
      tickCount (setSettings prev patch al).2 = 0) ∧
    tickCount (setSettings prev patch al).2 ≤ 1 := by
  unfold setSettings
  simp only []
  rw [tickCount_ensure (applyPatch prev patch) al]
  by_cases hcond : (applyPatch prev patch).paused = false ∧
      (applyPatch prev patch).intervalMin > 0
  · rw [if_pos hcond]
    exact ⟨⟨fun _ => hcond, fun _ => rfl⟩, fun hc => absurd hcond hc, by omega⟩
  · rw [if_neg hcond]
    exact ⟨⟨fun h => by simp at h, fun hc => absurd hc hcond⟩, fun _ => rfl, by omega⟩


/-- A cached summary (`SummaryEntry` in `background.ts`); `updatedAt` is an
epoch-milliseconds timestamp. -/
structure SummaryEntry where
  sectionKey : String
  text : String
  updatedAt : Nat
deriving DecidableEq

/-- JS `ToInt32` (the effect of `| 0` and of shift operands). -/
def toInt32 (n : Int) : Int :=
  let m := n.emod 4294967296
  if m < 2147483648 then m else m - 4294967296

/-- `simpleHash` from `background.ts`: the classic `h = (h << 5) - h + code`
rolling hash over the code points, kept in signed 32-bit range each step, then
rendered unsigned in decimal (`String(h >>> 0)`). -/
def simpleHash (s : String) : String :=
  let h := s.data.foldl (fun h c => toInt32 (toInt32 (h * 32) - h + (c.toNat : Int))) 0
  toString (h.emod 4294967296).toNat

/-- Characters matched by the token class `[a-z0-9]`. -/
def isTokChar (c : Char) : Bool :=
  ('a' ≤ c ∧ c ≤ 'z') ∨ ('0' ≤ c ∧ c ≤ '9')

/-- ASCII model of JS `String.prototype.toLowerCase` (only the ASCII range is
relevant to the `[a-z0-9]` token class). -/
def jsToLower (c : Char) : Char :=
  if 'A' ≤ c ∧ c ≤ 'Z' then Char.ofNat (c.toNat + 32) else c

/-- Maximal runs of `[a-z0-9]` characters.  The global greedy matches of
`/[a-z0-9]{3,}/g` are exactly the maximal such runs of length at least 3. -/
def tokenRuns : List Char → List (List Char)
  | [] => []
  | c :: cs =>
    let r := tokenRuns cs
    if isTokChar c then
      match cs with
      | d :: _ =>
        if isTokChar d then
          match r with
          | run :: rs => (c :: run) :: rs
          | [] => [[c]]
        else [c] :: r
      | [] => [[c]]
    else r

/-- The token set of `pickBestSummary`:
`new Set((s.toLowerCase().match(/[a-z0-9]{3,}/g) || []))`. -/
def tokenize (s : String) : Finset String :=
  ((tokenRuns (s.data.map jsToLower)).filter
    (fun r => 3 ≤ r.length)).map (fun r => String.mk r) |>.toFinset

/-- The loop `for (const w of sel) if (t.has(w)) score++`: the number of
tokens of the selection that also occur in the digest text. -/
def overlapScore (sel : Finset String) (text : String) : Nat :=
  (sel.filter (fun w => w ∈ tokenize text)).card

/-- One step of the stable insertion giving JS
`entries.sort((a, b) => b.updatedAt - a.updatedAt)`: an element goes after
every already-placed element with an equal or larger timestamp. -/
def insertByUpdatedDesc (e : SummaryEntry) : List SummaryEntry → List SummaryEntry
  | [] => [e]
  | x :: xs =>
    if e.updatedAt ≤ x.updatedAt then x :: insertByUpdatedDesc e xs
    else e :: x :: xs

/-- Stable sort by `updatedAt` descending (JS `Array.prototype.sort` is
stable). -/
def sortByUpdatedDesc (l : List SummaryEntry) : List SummaryEntry :=
  l.foldl (fun acc e => insertByUpdatedDesc e acc) []

/-- `pickBestSummary` from `background.ts`. -/
def pickBestSummary (provided : String)
    (summaries : List (String × SummaryEntry)) : Option SummaryEntry :=
  let entries := summaries.map (fun p => p.2)
  if entries.length = 0 then none
  else
    let sel := tokenize provided
    if sel.card = 0 then (sortByUpdatedDesc entries).head?
    else
      let best := entries.foldl
        (fun (acc : Option SummaryEntry × Int) e =>
          if acc.2 < (overlapScore sel e.text : Int) then
            (some e, (overlapScore sel e.text : Int))
          else acc)
        (none, -1)
      match best.1 with
      | some b => some b
      | none => (sortByUpdatedDesc entries).head?

theorem insertByUpdatedDesc_perm (e : SummaryEntry) :
    ∀ l, List.Perm (insertByUpdatedDesc e l) (e :: l) := by
  intro l
  induction l with
  | nil => exact List.Perm.refl _
  | cons x xs ih =>
    by_cases h : e.updatedAt ≤ x.updatedAt
    · simp only [insertByUpdatedDesc, h, if_true]
      exact (ih.cons x).trans (List.Perm.swap e x xs)
    · simp only [insertByUpdatedDesc, h, if_false]
      exact List.Perm.refl _

theorem sortByUpdatedDesc_perm_aux :
    ∀ (l acc : List SummaryEntry),
      List.Perm (l.foldl (fun acc e => insertByUpdatedDesc e acc) acc) (l ++ acc) := by
  intro l
  induction l with
  | nil => intro acc; exact List.Perm.refl _
  | cons e l ih =>
    intro acc
    have h1 := ih (insertByUpdatedDesc e acc)
    have h2 : List.Perm (l ++ insertByUpdatedDesc e acc) (l ++ e :: acc) :=
      (insertByUpdatedDesc_perm e acc).append_left l
    have h3 : List.Perm (l ++ e :: acc) (e :: (l ++ acc)) := List.perm_middle
    exact (h1.trans h2).trans h3

theorem sortByUpdatedDesc_perm (l : List SummaryEntry) :
    List.Perm (sortByUpdatedDesc l) l := by
  have := sortByUpdatedDesc_perm_aux l []
  simpa [sortByUpdatedDesc] using this

theorem mem_insertByUpdatedDesc (e : SummaryEntry) (l : List SummaryEntry)
    (y : SummaryEntry) (h : y ∈ insertByUpdatedDesc e l) : y = e ∨ y ∈ l := by
  have := (insertByUpdatedDesc_perm e l).mem_iff.mp h
  simpa using this

theorem insertByUpdatedDesc_pairwise (e : SummaryEntry) :
    ∀ l, List.Pairwise (fun a b => b.updatedAt ≤ a.updatedAt) l →
      List.Pairwise (fun a b => b.updatedAt ≤ a.updatedAt)
        (insertByUpdatedDesc e l) := by
  intro l
  induction l with
  | nil => intro _; exact List.pairwise_singleton _ _
  | cons x xs ih =>
    intro hp
    rcases List.pairwise_cons.mp hp with ⟨hx, hxs⟩
    by_cases h : e.updatedAt ≤ x.updatedAt
    · simp only [insertByUpdatedDesc, h, if_true]
      refine List.pairwise_cons.mpr ⟨?_, ih hxs⟩
      intro y hy
      rcases mem_insertByUpdatedDesc e xs y hy with h0 | h0
      · subst h0; exact h
      · exact hx y h0
    · simp only [insertByUpdatedDesc, h, if_false]
      refine List.pairwise_cons.mpr ⟨?_, hp⟩
      intro y hy
      rcases List.mem_cons.mp hy with h0 | h0
      · subst h0; omega
      · have := hx y h0
        omega

theorem sortByUpdatedDesc_pairwise (l : List SummaryEntry) :
    List.Pairwise (fun a b => b.updatedAt ≤ a.updatedAt) (sortByUpdatedDesc l) := by
  have haux : ∀ (m acc : List SummaryEntry),
      List.Pairwise (fun a b => b.updatedAt ≤ a.updatedAt) acc →
      List.Pairwise (fun a b => b.updatedAt ≤ a.updatedAt)
        (m.foldl (fun acc e => insertByUpdatedDesc e acc) acc) := by
    intro m
    induction m with
    | nil => intro acc h; exact h
    | cons e m ih =>
      intro acc h
      exact ih (insertByUpdatedDesc e acc) (insertByUpdatedDesc_pairwise e acc h)
  exact haux l [] List.Pairwise.nil

/-- The head of the descending sort is a most-recently-updated element. -/
theorem sortByUpdatedDesc_head_max (l : List SummaryEntry) (hne : ¬(l = [])) :
    ∃ e, (sortByUpdatedDesc l).head? = some e ∧ e ∈ l ∧
      ∀ x ∈ l, x.updatedAt ≤ e.updatedAt := by
  have hperm := sortByUpdatedDesc_perm l
  have hpw := sortByUpdatedDesc_pairwise l
  cases hs : sortByUpdatedDesc l with
  | nil =>
    exfalso
    rw [hs] at hperm
    exact hne hperm.symm.eq_nil
  | cons e rest =>
    refine ⟨e, rfl, ?_, ?_⟩
    · exact hperm.mem_iff.mp (by rw [hs]; simp)
    · intro x hx
      have hx' : x ∈ e :: rest := by
        rw [← hs]
        exact hperm.symm.mem_iff.mp hx
      rcases List.mem_cons.mp hx' with h0 | h0
      · subst h0; exact Nat.le_refl _
      · rw [hs] at hpw
        exact (List.pairwise_cons.mp hpw).1 x h0

/-- The strict-improvement loop of `pickBestSummary` selects the first entry
attaining the maximal score. -/
theorem pick_fold_spec (sel : Finset String) :
    ∀ (l : List SummaryEntry) (b : SummaryEntry),
      (l.foldl
        (fun (acc : Option SummaryEntry × Int) e =>
          if acc.2 < (overlapScore sel e.text : Int) then
            (some e, (overlapScore sel e.text : Int))
          else acc)
        (some b, (overlapScore sel b.text : Int)) =
          (some b, (overlapScore sel b.text : Int)) ∧
        ∀ e ∈ l, overlapScore sel e.text ≤ overlapScore sel b.text) ∨
      (∃ l₁ r l₂, l = l₁ ++ r :: l₂ ∧
        l.foldl
          (fun (acc : Option SummaryEntry × Int) e =>
            if acc.2 < (overlapScore sel e.text : Int) then
              (some e, (overlapScore sel e.text : Int))
            else acc)
          (some b, (overlapScore sel b.text : Int)) =
            (some r, (overlapScore sel r.text : Int)) ∧
        overlapScore sel b.text < overlapScore sel r.text ∧
        (∀ e ∈ l₁, overlapScore sel e.text < overlapScore sel r.text) ∧
        (∀ e ∈ l₂, overlapScore sel e.text ≤ overlapScore sel r.text)) := by
  intro l
  induction l with
  | nil => intro b; exact Or.inl ⟨rfl, by simp⟩
  | cons e l ih =>
    intro b
    by_cases h : (overlapScore sel b.text : Int) < (overlapScore sel e.text : Int)
    · rw [List.foldl_cons]
      rw [if_pos h]
      rcases ih e with ⟨heq, hall⟩ | ⟨m₁, r, m₂, hsplit, heq, hlt, h₁, h₂⟩
      · refine Or.inr ⟨[], e, l, by simp, heq, by omega, by simp, hall⟩
      · refine Or.inr ⟨e :: m₁, r, m₂, by simp [hsplit], heq, by omega, ?_, h₂⟩
        intro x hx
        rcases List.mem_cons.mp hx with h0 | h0
        · subst h0; omega
        · exact h₁ x h0
    · rw [List.foldl_cons]
      rw [if_neg h]
      rcases ih b with ⟨heq, hall⟩ | ⟨m₁, r, m₂, hsplit, heq, hlt, h₁, h₂⟩
      · refine Or.inl ⟨heq, ?_⟩
        intro x hx
        rcases List.mem_cons.mp hx with h0 | h0
        · subst h0; omega
        · exact hall x h0
      · refine Or.inr ⟨e :: m₁, r, m₂, by simp [hsplit], heq, hlt, ?_, h₂⟩
        intro x hx
        rcases List.mem_cons.mp hx with h0 | h0
        · subst h0; omega
        · exact h₁ x h0


/-- C2 (amended): `pickBestSummary` tokenizes the provided text into maximal
lowercase-alphanumeric runs of length at least 3; on an empty cache it returns
none; when the token set is empty it returns a most-recently-updated entry;
otherwise it returns the first entry, in the table's enumeration order, among
those with the highest token-overlap count — ties are NOT broken by the most
recent `updatedAtEpochMs`. -/
theorem C2_pickBestSummary_spec (provided : String)
    (summaries : List (String × SummaryEntry)) :
    (summaries = [] → pickBestSummary provided summaries = none) ∧
    (¬(summaries = []) → (tokenize provided).card = 0 →
      ∃ e, pickBestSummary provided summaries = some e ∧
        e ∈ summaries.map (fun p => p.2) ∧
        ∀ x ∈ summaries.map (fun p => p.2), x.updatedAt ≤ e.updatedAt) ∧
    (¬(summaries = []) → ¬((tokenize provided).card = 0) →
      ∃ l₁ r l₂, summaries.map (fun p => p.2) = l₁ ++ r :: l₂ ∧
        pickBestSummary provided summaries = some r ∧
        (∀ e ∈ l₁, overlapScore (tokenize provided) e.text <
          overlapScore (tokenize provided) r.text) ∧
        (∀ e ∈ summaries.map (fun p => p.2),
          overlapScore (tokenize provided) e.text ≤
            overlapScore (tokenize provided) r.text)) := by
  refine ⟨?_, ?_, ?_⟩
  · intro h
    subst h
    rfl
  · intro hne hcard
    have hlen : ¬((summaries.map (fun p => p.2)).length = 0) := by
      cases summaries with
      | nil => exact absurd rfl hne
      | cons p r => simp
    have hmne : ¬(summaries.map (fun p => p.2) = []) := by
      intro hcon
      exact hlen (by rw [hcon]; rfl)
    have hform : pickBestSummary provided summaries =
        (sortByUpdatedDesc (summaries.map (fun p => p.2))).head? := by
      simp only [pickBestSummary]
      rw [if_neg hlen, if_pos hcard]
    obtain ⟨e, he, hmem, hmax⟩ :=
      sortByUpdatedDesc_head_max (summaries.map (fun p => p.2)) hmne
    exact ⟨e, by rw [hform, he], hmem, hmax⟩
  · intro hne hcard
    have hlen : ¬((summaries.map (fun p => p.2)).length = 0) := by
      cases summaries with
      | nil => exact absurd rfl hne
      | cons p r => simp
    cases hm : summaries.map (fun p => p.2) with
    | nil => rw [hm] at hlen; exact absurd rfl hlen
    | cons e0 rest =>
      have hstep : (summaries.map (fun p => p.2)).foldl
          (fun (acc : Option SummaryEntry × Int) e =>
            if acc.2 < (overlapScore (tokenize provided) e.text : Int) then
              (some e, (overlapScore (tokenize provided) e.text : Int))
            else acc)
          (none, -1) =
        rest.foldl
          (fun (acc : Option SummaryEntry × Int) e =>
            if acc.2 < (overlapScore (tokenize provided) e.text : Int) then
              (some e, (overlapScore (tokenize provided) e.text : Int))
            else acc)
          (some e0, (overlapScore (tokenize provided) e0.text : Int)) := by
        rw [hm, List.foldl_cons, if_pos (by omega)]
      have hform : ∀ (o : Option SummaryEntry) (sc : Int),
          (summaries.map (fun p => p.2)).foldl
            (fun (acc : Option SummaryEntry × Int) e =>
              if acc.2 < (overlapScore (tokenize provided) e.text : Int) then
                (some e, (overlapScore (tokenize provided) e.text : Int))
              else acc)
            (none, -1) = (o, sc) →
          pickBestSummary provided summaries =
            (match o with
             | some b => some b
             | none => (sortByUpdatedDesc (summaries.map (fun p => p.2))).head?) := by
        intro o sc hfold
        simp only [pickBestSummary]
        rw [if_neg hlen, if_neg hcard, hfold]
      rcases pick_fold_spec (tokenize provided) rest e0 with
        ⟨heq, hall⟩ | ⟨m₁, r, m₂, hsplit, heq, hlt, h₁, h₂⟩
      · refine ⟨[], e0, rest, by simp, ?_, by simp, ?_⟩
        · exact hform (some e0) (overlapScore (tokenize provided) e0.text : Int)
            (hstep.trans heq)
        · intro x hx
          rcases List.mem_cons.mp hx with h0 | h0
          · subst h0; exact Nat.le_refl _
          · exact hall x h0
      · refine ⟨e0 :: m₁, r, m₂, by rw [hsplit]; simp, ?_, ?_, ?_⟩
        · exact hform (some r) (overlapScore (tokenize provided) r.text : Int)
            (hstep.trans heq)
        · intro x hx
          rcases List.mem_cons.mp hx with h0 | h0
          · subst h0; omega
          · exact h₁ x h0
        · intro x hx
          rw [hsplit] at hx
          rcases List.mem_cons.mp hx with h0 | h0
          · subst h0; omega
          · rcases List.mem_append.mp h0 with h1 | h1
            · have := h₁ x h1; omega
            · rcases List.mem_cons.mp h1 with h2 | h2
              · subst h2; exact Nat.le_refl _
              · exact h₂ x h2

/-- C2 counterexample: two cached entries whose digests tie on token overlap
with the provided text; the code returns the one that comes first in the
table's enumeration order, which has the OLDER `updatedAtEpochMs`, not the
most recent one as the claim states. -/
theorem C2_counterexample :
    pickBestSummary "alpha"
        [("100", (⟨"100", "alpha one", 1⟩ : SummaryEntry)),
         ("200", (⟨"200", "alpha two", 2⟩ : SummaryEntry))] =
      some (⟨"100", "alpha one", 1⟩ : SummaryEntry) ∧
    overlapScore (tokenize "alpha") "alpha one" =
      overlapScore (tokenize "alpha") "alpha two" ∧
    ¬(pickBestSummary "alpha"
        [("100", (⟨"100", "alpha one", 1⟩ : SummaryEntry)),
         ("200", (⟨"200", "alpha two", 2⟩ : SummaryEntry))] =
      some (⟨"200", "alpha two", 2⟩ : SummaryEntry)) := by
  refine ⟨by decide, by decide, by decide⟩

/-- C2 witness: the amended claim at a concrete single-entry cache. -/
theorem C2_witness :
    pickBestSummary "beta" [("7", (⟨"7", "beta gamma", 5⟩ : SummaryEntry))] =
      some (⟨"7", "beta gamma", 5⟩ : SummaryEntry) := by
  obtain ⟨l₁, r, l₂, hsplit, hpick, h₁, h₂⟩ :=
    (C2_pickBestSummary_spec "beta"
      [("7", (⟨"7", "beta gamma", 5⟩ : SummaryEntry))]).2.2 (by decide) (by decide)
  simp only [List.map] at hsplit
  cases l₁ with
  | nil =>
    simp only [List.nil_append, List.cons.injEq] at hsplit
    rw [hpick, ← hsplit.1]
  | cons a l₁ =>
    simp only [List.cons_append, List.cons.injEq] at hsplit
    rcases hsplit with ⟨_, hnil⟩
    exact absurd hnil.symm (by simp)


/-- Lookup in a JS object modelled as an association list in enumeration
order (`summaries[key]`). -/
def jsObjGet (r : List (String × SummaryEntry)) (k : String) : Option SummaryEntry :=
  (r.find? (fun p => p.1 = k)).map (fun p => p.2)

/-- Numeric value of an all-digit key. -/
def keyVal (k : String) : Nat :=
  k.data.foldl (fun a c => a * 10 + (c.toNat - 48)) 0

/-- A canonical array-index key, which JS objects enumerate in ascending
numeric order ahead of ordinary string keys: `"0"`, or digits without a
leading zero, denoting a value below `2^32 - 1`. -/
def isArrayIndexKey (k : String) : Bool :=
  ¬(k.data = []) ∧ k.data.all (fun c => c.isDigit) ∧
    (k = "0" ∨ ¬(k.data.head? = some '0')) ∧ keyVal k < 4294967295

/-- Insert a fresh array-index key into the numeric-key prefix of the
enumeration order, at its ascending numeric position. -/
def insertNumeric (k : String) (v : SummaryEntry) :
    List (String × SummaryEntry) → List (String × SummaryEntry)
  | [] => [(k, v)]
  | p :: rest =>
    if isArrayIndexKey p.1 ∧ keyVal p.1 < keyVal k then p :: insertNumeric k v rest
    else (k, v) :: p :: rest

/-- `summaries[key] = entry` under JS object-key semantics: an existing key
is updated in place, a fresh array-index key is enumerated in ascending
numeric position, and any other fresh key is appended in insertion order. -/
def jsObjSet (r : List (String × SummaryEntry)) (k : String) (v : SummaryEntry) :
    List (String × SummaryEntry) :=
  if (r.find? (fun p => p.1 = k)).isSome then
    r.map (fun p => if p.1 = k then (k, v) else p)
  else if isArrayIndexKey k then insertNumeric k v r
  else r ++ [(k, v)]

/-- `simpleHash(sampleText.slice(0, 800))`: the cache key of a sample. -/
def sectionKeyOf (sampleText : String) : String :=
  simpleHash (String.mk (sampleText.data.take 800))

/-- The table immediately after `summaries[sectionKey] = {...}` in
`maybeUpdateSummary`, before the eviction step. -/
def insertedTable (now : Nat) (modelSummary sampleText : String)
    (summaries : List (String × SummaryEntry)) : List (String × SummaryEntry) :=
  jsObjSet summaries (sectionKeyOf sampleText)
    ⟨sectionKeyOf sampleText, jsTrim modelSummary, now⟩

/-- `maybeUpdateSummary` from `background.ts`, with the summarization call
abstracted into the argument `modelSummary` (the result of
`ollamaChat({...}).catch(() => '')`; a failed call yields `''`).  The
cache-hit test `summaries[sectionKey]?.text` is truthy exactly when an entry
exists whose text is non-empty. -/
def maybeUpdateSummary (now : Nat) (modelSummary sampleText : String)
    (summaries : List (String × SummaryEntry)) : List (String × SummaryEntry) :=
  let sectionKey := sectionKeyOf sampleText
  if ¬(((jsObjGet summaries sectionKey).map (fun e => e.text)).getD "" = "") then
    summaries
  else if ¬(modelSummary = "") ∧ ¬(jsTrim modelSummary = "") then
    let summaries1 := jsObjSet summaries sectionKey
      ⟨sectionKey, jsTrim modelSummary, now⟩
    let entries := sortByUpdatedDesc (summaries1.map (fun p => p.2))
    if 12 < entries.length then
      let keep := (entries.take 12).map (fun e => e.sectionKey)
      summaries1.filter (fun p => p.1 ∈ keep)
    else summaries1
  else summaries

/-- Well-formedness of the per-document table: keys are unique and every
entry's `sectionKey` field is its record key (as `maybeUpdateSummary` writes
them). -/
def TableWF (r : List (String × SummaryEntry)) : Prop :=
  (r.map (fun p => p.1)).Nodup ∧ ∀ p ∈ r, p.2.sectionKey = p.1

theorem insertNumeric_perm (k : String) (v : SummaryEntry) :
    ∀ r, List.Perm (insertNumeric k v r) ((k, v) :: r) := by
  intro r
  induction r with
  | nil => exact List.Perm.refl _
  | cons p rest ih =>
    by_cases h : isArrayIndexKey p.1 ∧ keyVal p.1 < keyVal k
    · simp only [insertNumeric, h, if_true]
      exact (ih.cons p).trans (List.Perm.swap (k, v) p rest)
    · simp only [insertNumeric, h, if_false]
      exact List.Perm.refl _

theorem jsObjSet_perm_fresh (r : List (String × SummaryEntry)) (k : String)
    (v : SummaryEntry) (h : r.find? (fun p => p.1 = k) = none) :
    List.Perm (jsObjSet r k v) ((k, v) :: r) := by
  unfold jsObjSet
  rw [h]
  simp only [Option.isSome_none, Bool.false_eq_true, if_false]
  split
  · exact insertNumeric_perm k v r
  · exact List.perm_append_singleton (k, v) r

theorem jsObjGet_set_ne (r : List (String × SummaryEntry)) (k : String)
    (v : SummaryEntry) (k' : String) (hne : ¬(k' = k)) :
    jsObjGet (jsObjSet r k v) k' = jsObjGet r k' := by
  have hkv : ¬((decide ((k, v).1 = k')) = true) := by
    simp only [decide_eq_true_eq]
    intro hc
    exact hne hc.symm
  unfold jsObjSet
  by_cases hf : (r.find? (fun p => p.1 = k)).isSome
  · rw [if_pos hf]
    unfold jsObjGet
    congr 1
    clear hf
    induction r with
    | nil => rfl
    | cons p rest ih =>
      simp only [List.map_cons]
      by_cases hp : p.1 = k
      · rw [if_pos hp]
        rw [@List.find?_cons_of_neg _ (fun q => decide (q.1 = k')) (k, v) _ hkv]
        rw [@List.find?_cons_of_neg _ (fun q => decide (q.1 = k')) p _ (by
          simp only [decide_eq_true_eq]
          rw [hp]
          intro hc
          exact hne hc.symm)]
        exact ih
      · rw [if_neg hp]
        by_cases hq : (decide (p.1 = k')) = true
        · rw [@List.find?_cons_of_pos _ (fun q => decide (q.1 = k')) p _ hq,
            @List.find?_cons_of_pos _ (fun q => decide (q.1 = k')) p _ hq]
        · rw [@List.find?_cons_of_neg _ (fun q => decide (q.1 = k')) p _ hq,
            @List.find?_cons_of_neg _ (fun q => decide (q.1 = k')) p _ hq]
          exact ih
  · rw [if_neg hf]
    split
    · unfold jsObjGet
      congr 1
      clear hf
      induction r with
      | nil =>
        simp only [insertNumeric]
        rw [@List.find?_cons_of_neg _ (fun q => decide (q.1 = k')) (k, v) _ hkv]
      | cons p rest ih =>
        simp only [insertNumeric]
        by_cases hp : isArrayIndexKey p.1 ∧ keyVal p.1 < keyVal k
        · rw [if_pos hp]
          by_cases hq : (decide (p.1 = k')) = true
          · rw [@List.find?_cons_of_pos _ (fun q => decide (q.1 = k')) p _ hq,
              @List.find?_cons_of_pos _ (fun q => decide (q.1 = k')) p _ hq]
          · rw [@List.find?_cons_of_neg _ (fun q => decide (q.1 = k')) p _ hq,
              @List.find?_cons_of_neg _ (fun q => decide (q.1 = k')) p _ hq]
            exact ih
        · rw [if_neg hp]
          rw [@List.find?_cons_of_neg _ (fun q => decide (q.1 = k')) (k, v) _ hkv]
    · unfold jsObjGet
      congr 1
      clear hf
      induction r with
      | nil =>
        simp only [List.nil_append]
        rw [@List.find?_cons_of_neg _ (fun q => decide (q.1 = k')) (k, v) _ hkv]
      | cons p rest ih =>
        simp only [List.cons_append]
        by_cases hq : (decide (p.1 = k')) = true
        · rw [@List.find?_cons_of_pos _ (fun q => decide (q.1 = k')) p _ hq,
            @List.find?_cons_of_pos _ (fun q => decide (q.1 = k')) p _ hq]
        · rw [@List.find?_cons_of_neg _ (fun q => decide (q.1 = k')) p _ hq,
            @List.find?_cons_of_neg _ (fun q => decide (q.1 = k')) p _ hq]
          exact ih

theorem find?_none_keys (r : List (String × SummaryEntry)) (k : String)
    (h : r.find? (fun p => p.1 = k) = none) : k ∉ r.map (fun p => p.1) := by
  intro hc
  obtain ⟨p, hp, hpk⟩ := List.mem_map.mp hc
  have := List.find?_eq_none.mp h p hp
  simp [hpk] at this

theorem jsObjSet_wf_fresh (r : List (String × SummaryEntry)) (k : String)
    (v : SummaryEntry) (hfind : r.find? (fun p => p.1 = k) = none)
    (hwf : TableWF r) (hv : v.sectionKey = k) : TableWF (jsObjSet r k v) := by
  have hperm := jsObjSet_perm_fresh r k v hfind
  constructor
  · have hkeys : List.Perm ((jsObjSet r k v).map (fun p => p.1))
        (k :: r.map (fun p => p.1)) := hperm.map (fun p => p.1)
    exact hkeys.nodup_iff.mpr (List.nodup_cons.mpr ⟨find?_none_keys r k hfind, hwf.1⟩)
  · intro p hp
    rcases List.mem_cons.mp (hperm.mem_iff.mp hp) with h0 | h0
    · subst h0; exact hv
    · exact hwf.2 p h0

theorem jsObjGet_filter (q : String × SummaryEntry → Bool) :
    ∀ (r : List (String × SummaryEntry)) (k : String) (e : SummaryEntry),
      (r.map (fun p => p.1)).Nodup → jsObjGet r k = some e →
      jsObjGet (r.filter q) k = some e ∨ jsObjGet (r.filter q) k = none := by
  intro r
  induction r with
  | nil => intro k e _ h; simp [jsObjGet] at h
  | cons p rest ih =>
    intro k e hnd h
    have hnd1 : (rest.map (fun p => p.1)).Nodup := (List.nodup_cons.mp (by simpa using hnd)).2
    have hnotin : p.1 ∉ rest.map (fun x => x.1) := (List.nodup_cons.mp (by simpa using hnd)).1
    by_cases hp : p.1 = k
    · have he : p.2 = e := by
        unfold jsObjGet at h
        rw [List.find?_cons] at h
        rw [show (decide (p.1 = k)) = true by simpa using hp] at h
        simpa using h
      by_cases hq : q p = true
      · left
        unfold jsObjGet
        rw [List.filter_cons_of_pos hq, List.find?_cons]
        rw [show (decide (p.1 = k)) = true by simpa using hp]
        simpa using he
      · right
        rw [List.filter_cons_of_neg (by simpa using hq)]
        unfold jsObjGet
        rw [Option.map_eq_none']
        rw [List.find?_eq_none]
        intro x hx
        have hxr : x ∈ rest := List.mem_of_mem_filter hx
        simp only [decide_eq_true_eq]
        intro hc
        exact hnotin (by
          rw [hp, ← hc]
          exact List.mem_map.mpr ⟨x, hxr, rfl⟩)
    · have h' : jsObjGet rest k = some e := by
        unfold jsObjGet at h ⊢
        rw [List.find?_cons] at h
        rw [show (decide (p.1 = k)) = false by simpa using hp] at h
        exact h
      by_cases hq : q p = true
      · have := ih k e hnd1 h'
        unfold jsObjGet at this ⊢
        rw [List.filter_cons_of_pos hq, List.find?_cons]
        rw [show (decide (p.1 = k)) = false by simpa using hp]
        exact this
      · rw [List.filter_cons_of_neg (by simpa using hq)]
        exact ih k e hnd1 h'

theorem filter_keys_le (r : List (String × SummaryEntry)) (keep : List String)
    (hnd : (r.map (fun p => p.1)).Nodup) :
    (r.filter (fun p => p.1 ∈ keep)).length ≤ keep.length := by
  have hsub : List.Sublist (r.filter (fun p => p.1 ∈ keep)) r := List.filter_sublist r
  have hnd' : ((r.filter (fun p => p.1 ∈ keep)).map (fun p => p.1)).Nodup :=
    hnd.sublist (hsub.map (fun p => p.1))
  have hss : ((r.filter (fun p => p.1 ∈ keep)).map (fun p => p.1)).toFinset ⊆
      keep.toFinset := by
    intro x hx
    rw [List.mem_toFinset] at hx ⊢
    obtain ⟨p, hp, hpk⟩ := List.mem_map.mp hx
    have := List.of_mem_filter hp
    rw [← hpk]
    simpa using this
  calc (r.filter (fun p => p.1 ∈ keep)).length
      = ((r.filter (fun p => p.1 ∈ keep)).map (fun p => p.1)).length := by
        rw [List.length_map]
    _ = ((r.filter (fun p => p.1 ∈ keep)).map (fun p => p.1)).toFinset.card :=
        (List.toFinset_card_of_nodup hnd').symm
    _ ≤ keep.toFinset.card := Finset.card_le_card hss
    _ ≤ keep.length := List.toFinset_card_le keep


theorem jsObjGet_none_iff (r : List (String × SummaryEntry)) (k : String) :
    jsObjGet r k = none ↔ r.find? (fun p => p.1 = k) = none := by
  unfold jsObjGet
  rw [Option.map_eq_none']

/-- C7: after every completed `maybeUpdateSummary` on a well-formed table of
at most 12 entries, the table still holds at most 12 entries; an entry already
written with non-empty text is never overwritten (it is either kept unchanged
or evicted); and when the insertion lands in a full 12-entry table, every
evicted pair has the minimal `updatedAtEpochMs` among the 13 entries present
after the insertion. -/
theorem C7_cache_invariants (now : Nat) (modelSummary sampleText : String)
    (summaries : List (String × SummaryEntry))
    (hwf : TableWF summaries) (hsize : summaries.length ≤ 12) :
    (maybeUpdateSummary now modelSummary sampleText summaries).length ≤ 12 ∧
    (∀ k e, jsObjGet summaries k = some e → ¬(e.text = "") →
      jsObjGet (maybeUpdateSummary now modelSummary sampleText summaries) k = some e ∨
      jsObjGet (maybeUpdateSummary now modelSummary sampleText summaries) k = none) ∧
    (summaries.length = 12 →
      jsObjGet summaries (sectionKeyOf sampleText) = none →
      ¬(jsTrim modelSummary = "") →
      ∀ p ∈ insertedTable now modelSummary sampleText summaries,
        p ∉ maybeUpdateSummary now modelSummary sampleText summaries →
        ∀ q ∈ insertedTable now modelSummary sampleText summaries,
          p.2.updatedAt ≤ q.2.updatedAt) := by
  by_cases hhit :
      ¬(((jsObjGet summaries (sectionKeyOf sampleText)).map (fun e => e.text)).getD "" = "")
  · -- cache hit: the function returns the table unchanged
    have hM : maybeUpdateSummary now modelSummary sampleText summaries = summaries := by
      simp only [maybeUpdateSummary]
      rw [if_pos hhit]
    rw [hM]
    refine ⟨hsize, fun k e h _ => Or.inl h, ?_⟩
    intro _ hfresh _
    exfalso
    rw [hfresh] at hhit
    simp at hhit
  · by_cases hs1 : ¬(modelSummary = "") ∧ ¬(jsTrim modelSummary = "")
    · -- insertion path
      have hM : maybeUpdateSummary now modelSummary sampleText summaries =
          (if 12 < (sortByUpdatedDesc
              ((insertedTable now modelSummary sampleText summaries).map
                (fun p => p.2))).length then
            (insertedTable now modelSummary sampleText summaries).filter
              (fun p => p.1 ∈ ((sortByUpdatedDesc
                ((insertedTable now modelSummary sampleText summaries).map
                  (fun p => p.2))).take 12).map (fun e => e.sectionKey))
          else insertedTable now modelSummary sampleText summaries) := by
        simp only [maybeUpdateSummary]
        rw [if_neg hhit, if_pos hs1]
        rfl
      by_cases hfind :
          (summaries.find? (fun p => p.1 = sectionKeyOf sampleText)).isSome
      · -- the key already exists (necessarily with empty text): in-place update
        have hlen1 : (insertedTable now modelSummary sampleText summaries).length =
            summaries.length := by
          unfold insertedTable jsObjSet
          rw [if_pos hfind]
          exact List.length_map _ _
        have hnoev : ¬(12 < (sortByUpdatedDesc
            ((insertedTable now modelSummary sampleText summaries).map
              (fun p => p.2))).length) := by
          rw [(sortByUpdatedDesc_perm _).length_eq, List.length_map, hlen1]
          omega
        rw [hM, if_neg hnoev]
        refine ⟨by rw [hlen1]; exact hsize, ?_, ?_⟩
        · intro k e h hne
          have hkne : ¬(k = sectionKeyOf sampleText) := by
            intro hc
            rw [hc] at h
            rw [h] at hhit
            simp at hhit
            exact hne hhit
          left
          unfold insertedTable
          rw [jsObjGet_set_ne summaries (sectionKeyOf sampleText) _ k hkne]
          exact h
        · intro _ hfresh _
          exfalso
          rw [jsObjGet_none_iff] at hfresh
          rw [hfresh] at hfind
          simp at hfind
      · -- fresh key
        have hfindn : summaries.find? (fun p => p.1 = sectionKeyOf sampleText) = none := by
          cases h : summaries.find? (fun p => p.1 = sectionKeyOf sampleText) with
          | none => rfl
          | some p => rw [h] at hfind; simp at hfind
        have hperm1 : List.Perm (insertedTable now modelSummary sampleText summaries)
            ((sectionKeyOf sampleText,
              (⟨sectionKeyOf sampleText, jsTrim modelSummary, now⟩ : SummaryEntry)) ::
              summaries) :=
          jsObjSet_perm_fresh summaries (sectionKeyOf sampleText) _ hfindn
        have hlen1 : (insertedTable now modelSummary sampleText summaries).length =
            summaries.length + 1 := by
          rw [hperm1.length_eq]
          rfl
        have hwf1 : TableWF (insertedTable now modelSummary sampleText summaries) :=
          jsObjSet_wf_fresh summaries (sectionKeyOf sampleText) _ hfindn hwf rfl
        have hentlen : (sortByUpdatedDesc
            ((insertedTable now modelSummary sampleText summaries).map
              (fun p => p.2))).length = summaries.length + 1 := by
          rw [(sortByUpdatedDesc_perm _).length_eq, List.length_map, hlen1]
        have hget1 : ∀ k e, ¬(k = sectionKeyOf sampleText) →
            jsObjGet summaries k = some e →
            jsObjGet (insertedTable now modelSummary sampleText summaries) k = some e := by
          intro k e hkne h
          unfold insertedTable
          rw [jsObjGet_set_ne summaries (sectionKeyOf sampleText) _ k hkne]
          exact h
        by_cases hev : 12 < (sortByUpdatedDesc
            ((insertedTable now modelSummary sampleText summaries).map
              (fun p => p.2))).length
        · -- eviction branch
          have hsz12 : summaries.length = 12 := by omega
          have hlen13 : (sortByUpdatedDesc
              ((insertedTable now modelSummary sampleText summaries).map
                (fun p => p.2))).length = 13 := by omega
          rw [hM, if_pos hev]
          have hkeeplen : (((sortByUpdatedDesc
              ((insertedTable now modelSummary sampleText summaries).map
                (fun p => p.2))).take 12).map (fun e => e.sectionKey)).length = 12 := by
            rw [List.length_map, List.length_take, hlen13]
            decide
          refine ⟨?_, ?_, ?_⟩
          · have := filter_keys_le (insertedTable now modelSummary sampleText summaries)
              (((sortByUpdatedDesc
                ((insertedTable now modelSummary sampleText summaries).map
                  (fun p => p.2))).take 12).map (fun e => e.sectionKey)) hwf1.1
            omega
          · intro k e h hne
            have hkne : ¬(k = sectionKeyOf sampleText) := by
              intro hc
              rw [hc] at h
              rw [(jsObjGet_none_iff summaries (sectionKeyOf sampleText)).mpr hfindn] at h
              simp at h
            exact jsObjGet_filter _ (insertedTable now modelSummary sampleText summaries)
              k e hwf1.1 (hget1 k e hkne h)
          · intro _ _ _
            intro p hp hpnot q hq
            have hkeep : ¬(p.1 ∈ (((sortByUpdatedDesc
                ((insertedTable now modelSummary sampleText summaries).map
                  (fun x => x.2))).take 12).map (fun e => e.sectionKey))) := by
              intro hin
              exact hpnot (List.mem_filter.mpr ⟨hp, by simpa using hin⟩)
            set entries := sortByUpdatedDesc
              ((insertedTable now modelSummary sampleText summaries).map
                (fun p => p.2)) with hent
            have hpe : p.2 ∈ entries :=
              (sortByUpdatedDesc_perm _).mem_iff.mpr
                (List.mem_map.mpr ⟨p, hp, rfl⟩)
            have hqe : q.2 ∈ entries :=
              (sortByUpdatedDesc_perm _).mem_iff.mpr
                (List.mem_map.mpr ⟨q, hq, rfl⟩)
            have hpw2 : List.Pairwise (fun a b => b.updatedAt ≤ a.updatedAt)
                (entries.take 12 ++ entries.drop 12) := by
              rw [List.take_append_drop]
              exact sortByUpdatedDesc_pairwise _
            have hpe2 : p.2 ∈ List.take 12 entries ++ List.drop 12 entries := by
              rw [List.take_append_drop]
              exact hpe
            have hpdrop : p.2 ∈ entries.drop 12 := by
              rcases List.mem_append.mp hpe2 with h0 | h0
              · exfalso
                exact hkeep (by
                  rw [← hwf1.2 p hp]
                  exact List.mem_map.mpr ⟨p.2, h0, rfl⟩)
              · exact h0
            have hdlen : (entries.drop 12).length = 1 := by
              rw [List.length_drop, hlen13]
            obtain ⟨z, hz⟩ := List.length_eq_one.mp hdlen
            have hpz : p.2 = z := by
              rw [hz] at hpdrop
              simpa using hpdrop
            have hqe2 : q.2 ∈ List.take 12 entries ++ List.drop 12 entries := by
              rw [List.take_append_drop]
              exact hqe
            rcases List.mem_append.mp hqe2 with h0 | h0
            · have := (List.pairwise_append.mp hpw2).2.2 q.2 h0 p.2 hpdrop
              exact this
            · have hqz : q.2 = z := by
                rw [hz] at h0
                simpa using h0
              rw [hpz, hqz]
        · -- no eviction
          rw [hM, if_neg hev]
          refine ⟨by omega, ?_, ?_⟩
          · intro k e h hne
            have hkne : ¬(k = sectionKeyOf sampleText) := by
              intro hc
              rw [hc] at h
              rw [(jsObjGet_none_iff summaries (sectionKeyOf sampleText)).mpr hfindn] at h
              simp at h
            exact Or.inl (hget1 k e hkne h)
          · intro hsz12 _ _
            exfalso
            rw [hentlen, hsz12] at hev
            omega
    · -- model summary empty: no write
      have hM : maybeUpdateSummary now modelSummary sampleText summaries = summaries := by
        simp only [maybeUpdateSummary]
        rw [if_neg hhit, if_neg hs1]
      rw [hM]
      refine ⟨hsize, fun k e h _ => Or.inl h, ?_⟩
      intro _ _ hsum
      exfalso
      apply hs1
      refine ⟨?_, hsum⟩
      intro hc
      rw [hc] at hsum
      exact hsum rfl

/-- C7 witness: a run on the empty (trivially well-formed) table. -/
theorem C7_witness :
    TableWF [] ∧ ([] : List (String × SummaryEntry)).length ≤ 12 ∧
    (maybeUpdateSummary 5 "a summary." "sample" []).length ≤ 12 :=
  ⟨⟨List.nodup_nil, by simp⟩, by simp,
    (C7_cache_invariants 5 "a summary." "sample" []
      ⟨List.nodup_nil, by simp⟩ (by simp)).1⟩


/-- Result shape of `grabEditorText`. -/
structure TextSample where
  selection : String
  text : String
  wasTruncated : Bool
deriving DecidableEq

/-- Geometry and text of one rendered editor line (`offsetTop`,
`offsetHeight`, `innerText`). -/
structure LineBox where
  y : Int
  h : Int
  text : String
deriving DecidableEq

/-- The CodeMirror scroll viewport (`.cm-scroller`). -/
structure CmScroller where
  scrollTop : Int
  clientHeight : Int

/-- The Ace editor API surface used by visible-mode extraction
(`getFirstVisibleRow`, `getLastVisibleRow`,
`session.getTextRange(new Range(a, 0, b, 0))`). -/
structure AceApi where
  firstVisibleRow : Nat
  lastVisibleRow : Nat
  textRange : Nat → Nat → String

/-- The DOM and editor-API observations `grabEditorText` makes, abstracted as
a value: each field holds what the corresponding query or accessor returns,
with `none` modelling an absent editor surface, a missing accessor, or a
thrown exception (all of which the source treats alike by moving on). -/
structure DocState where
  winSel : String
  cmSel : Option String
  cmSelAlt : List String
  aceSel : Option String
  ceSel : List String
  cmLines : Option (List String)
  cmGeom : Option (CmScroller × List LineBox)
  aceLines : Option (List String)
  aceApi : Option AceApi
  editorEls : List String
  bodyText : String

/-- First element with a non-empty trim, trimmed (the `if (x && x.trim())
{ sel = x.trim(); break }` loops). -/
def firstNonEmptyTrim : List String → String
  | [] => ""
  | s :: rest => if ¬(jsTrim s = "") then jsTrim s else firstNonEmptyTrim rest

/-- First non-empty element (method 4 stores already-trimmed text). -/
def firstNonEmpty : List String → String
  | [] => ""
  | s :: rest => if ¬(s = "") then s else firstNonEmpty rest

/-- The selection-probe cascade of `grabEditorText` (methods 1, 2, 2.5, 3,
4): the first probe producing non-empty trimmed text wins. -/
def computeSel (d : DocState) : String :=
  let s1 := jsTrim d.winSel
  if ¬(s1 = "") then s1
  else
    let s2 := match d.cmSel with
      | some s => if ¬(jsTrim s = "") then jsTrim s else ""
      | none => ""
    if ¬(s2 = "") then s2
    else
      let s25 := firstNonEmptyTrim d.cmSelAlt
      if ¬(s25 = "") then s25
      else
        let s3 := match d.aceSel with
          | some s => if ¬(jsTrim s = "") then jsTrim s else ""
          | none => ""
        if ¬(s3 = "") then s3
        else firstNonEmpty d.ceSel

/-- The CodeMirror visible-mode slice: filter the structurally visible line
boxes, extend the range by 16 lines downward only, join the slice, and fall
back to 20 lines from the top of the viewport when the slice is blank. -/
def cmVisibleText (sc : CmScroller) (allLines : List LineBox) : String :=
  let top := sc.scrollTop
  let bottom := top + sc.clientHeight
  let visible := allLines.filter (fun l =>
    let hh := if l.h = 0 then 18 else l.h
    top ≤ l.y + hh ∧ l.y ≤ bottom)
  let fi : Nat := match visible.head? with
    | some v0 => allLines.indexOf v0
    | none => 0
  let li : Int := match visible.getLast? with
    | some vl => min ((allLines.length : Int) - 1) ((allLines.indexOf vl : Int) + 16)
    | none => -1
  let slice := if (fi : Int) ≤ li then
    (allLines.drop fi).take ((li + 1 - (fi : Int)).toNat)
  else visible
  let text0 := String.intercalate "\n"
    ((if ¬(slice = []) then slice else allLines).map (fun l => l.text))
  if jsTrim text0 = "" ∧ ¬(allLines = []) then
    let start := fi
    let stop := min allLines.length (start + 20)
    String.intercalate "\n" (((allLines.drop start).take (stop - start)).map (fun l => l.text))
  else text0

/-- Extraction mode of `grabEditorText`. -/
inductive GrabMode where
  | all
  | visible
deriving DecidableEq

/-- The non-selection text sources of `grabEditorText`: CodeMirror lines
(with the visible-mode geometry when available), else Ace (with its
visible-row API when available), else content-editable/editor elements, else
`document.body.innerText`. -/
def computeText (d : DocState) (mode : GrabMode) : String :=
  match d.cmLines with
  | some lines =>
    match mode with
    | GrabMode.visible =>
      match d.cmGeom with
      | some g => cmVisibleText g.1 g.2
      | none => String.intercalate "\n" lines
    | GrabMode.all => String.intercalate "\n" lines
  | none =>
    match d.aceLines with
    | some aceLs =>
      let t := match mode, d.aceApi with
        | GrabMode.visible, some api =>
          let t1 := api.textRange api.firstVisibleRow (api.lastVisibleRow + 8)
          if t1 = "" ∨ jsTrim t1 = "" then
            api.textRange api.firstVisibleRow
              (min (api.lastVisibleRow + 12) (api.firstVisibleRow + 24))
          else t1
        | _, _ => ""
      if t = "" then String.intercalate "\n" aceLs else t
    | none =>
      if ¬(d.editorEls = []) then String.intercalate "\n" d.editorEls
      else d.bodyText

/-- `text.replace(/\r\n/g, '\n')`. -/
def replCRLF : List Char → List Char
  | '\r' :: '\n' :: rest => '\n' :: replCRLF rest
  | c :: rest => c :: replCRLF rest
  | [] => []

/-- The newline clean-up `replace(/\r\n/g, '\n').replace(/\r/g, '\n')`. -/
def normalizeNewlinesL (l : List Char) : List Char :=
  (replCRLF l).map (fun c => if c = '\r' then '\n' else c)

/-- Selection and raw body text of `grabEditorText` before clean-up: with
`preferSelection` the text is the selection or stays empty (no fall back to
the document), otherwise it comes from the editor-surface cascade. -/
def grabRaw (d : DocState) (preferSelection : Bool) (mode : GrabMode) :
    String × String :=
  let sel := computeSel d
  let text := if preferSelection then (if ¬(sel = "") then sel else "")
    else computeText d mode
  (sel, text)

/-- `grabEditorText` from the content script: probe for a selection, build
the body text, normalize newlines, `trim()`, and hard-truncate to 1500
characters, recording whether truncation happened. -/
def grabEditorText (d : DocState) (preferSelection : Bool) (mode : GrabMode) :
    TextSample :=
  let r := grabRaw d preferSelection mode
  let cleaned := jsTrimL (normalizeNewlinesL r.2.data)
  let wasTruncated := decide (1500 < cleaned.length)
  ⟨r.1, String.mk (if wasTruncated then cleaned.take 1500 else cleaned), wasTruncated⟩

theorem firstNonEmptyTrim_empty (l : List String) (h : ∀ s ∈ l, jsTrim s = "") :
    firstNonEmptyTrim l = "" := by
  induction l with
  | nil => rfl
  | cons s rest ih =>
    simp only [firstNonEmptyTrim, h s (by simp), not_true, ite_false]
    exact ih (fun x hx => h x (by simp [hx]))

theorem firstNonEmpty_empty (l : List String) (h : ∀ s ∈ l, s = "") :
    firstNonEmpty l = "" := by
  induction l with
  | nil => rfl
  | cons s rest ih =>
    simp only [firstNonEmpty, h s (by simp), not_true, ite_false]
    exact ih (fun x hx => h x (by simp [hx]))

theorem computeSel_empty (d : DocState)
    (h1 : jsTrim d.winSel = "")
    (h2 : ∀ s, d.cmSel = some s → jsTrim s = "")
    (h3 : ∀ s ∈ d.cmSelAlt, jsTrim s = "")
    (h4 : ∀ s, d.aceSel = some s → jsTrim s = "")
    (h5 : ∀ s ∈ d.ceSel, s = "") :
    computeSel d = "" := by
  have hs2 : (match d.cmSel with
      | some s => if ¬(jsTrim s = "") then jsTrim s else ""
      | none => "") = "" := by
    cases hc : d.cmSel with
    | none => rfl
    | some s => simp [h2 s hc]
  have hs3 : (match d.aceSel with
      | some s => if ¬(jsTrim s = "") then jsTrim s else ""
      | none => "") = "" := by
    cases hc : d.aceSel with
    | none => rfl
    | some s => simp [h4 s hc]
  simp only [computeSel, h1, hs2, hs3, firstNonEmptyTrim_empty d.cmSelAlt h3,
    firstNonEmpty_empty d.ceSel h5, not_true, ite_false]

/-- C5: when none of the selection probes yields non-empty text,
selection-scope extraction returns an empty selection and empty text — it
never falls back to whole-document text. -/
theorem C5_selection_no_fallback (d : DocState) (mode : GrabMode)
    (h1 : jsTrim d.winSel = "")
    (h2 : ∀ s, d.cmSel = some s → jsTrim s = "")
    (h3 : ∀ s ∈ d.cmSelAlt, jsTrim s = "")
    (h4 : ∀ s, d.aceSel = some s → jsTrim s = "")
    (h5 : ∀ s ∈ d.ceSel, s = "") :
    grabEditorText d true mode = ⟨"", "", false⟩ := by
  have hsel := computeSel_empty d h1 h2 h3 h4 h5
  simp only [grabEditorText, grabRaw, hsel, not_true, ite_false, if_true]
  rfl

/-- C5 witness: a document state with every probe empty. -/
theorem C5_witness :
    grabEditorText
      ⟨"", none, [], none, [], none, none, none, none, [], "body text"⟩
      true GrabMode.all = ⟨"", "", false⟩ :=
  C5_selection_no_fallback
    ⟨"", none, [], none, [], none, none, none, none, [], "body text"⟩
    GrabMode.all rfl (fun s hs => Option.noConfusion hs) (by simp)
    (fun s hs => Option.noConfusion hs) (by simp)

/-- C6: whenever the cleaned-up extracted text exceeds the 1500-character
budget, the sample is marked truncated and its text is exactly 1500
characters long. -/
theorem C6_truncation (d : DocState) (pref : Bool) (mode : GrabMode)
    (h : 1500 < (jsTrimL (normalizeNewlinesL (grabRaw d pref mode).2.data)).length) :
    (grabEditorText d pref mode).wasTruncated = true ∧
    (grabEditorText d pref mode).text.length = 1500 := by
  constructor
  · simp only [grabEditorText]
    exact decide_eq_true h
  · simp only [grabEditorText, decide_eq_true h, if_true]
    show (String.mk ((jsTrimL (normalizeNewlinesL
      (grabRaw d pref mode).2.data)).take 1500)).length = 1500
    have : (String.mk ((jsTrimL (normalizeNewlinesL
        (grabRaw d pref mode).2.data)).take 1500)).length =
        ((jsTrimL (normalizeNewlinesL (grabRaw d pref mode).2.data)).take 1500).length :=
      rfl
    rw [this, List.length_take]
    omega

/-- C6 witness: a 1501-character body with no editor surface present. -/
theorem C6_witness :
    (grabEditorText
      ⟨"", none, [], none, [], none, none, none, none, [],
        String.mk (List.replicate 1501 'a')⟩ false GrabMode.all).wasTruncated = true ∧
    (grabEditorText
      ⟨"", none, [], none, [], none, none, none, none, [],
        String.mk (List.replicate 1501 'a')⟩ false GrabMode.all).text.length = 1500 :=
  C6_truncation
    ⟨"", none, [], none, [], none, none, none, none, [],
      String.mk (List.replicate 1501 'a')⟩ false GrabMode.all (by decide)


/-! ### Model client: JSON values and `JSON.parse` (background.ts 599-624)

`ollamaChatStream` splits the byte stream on newlines and runs `JSON.parse`
on each trimmed fragment.  The parser below follows the JSON grammar that
`JSON.parse` accepts: the four whitespace characters, `null`/`true`/`false`,
double-quoted strings with the standard escapes (including `\uXXXX` code
units), numbers, arrays and objects.  Numbers are kept as their source lexeme
(`Json.num`); JavaScript would convert them to doubles, but every delta the
protocol extracts is a string, so the numeric value itself is never needed,
only its truthiness, which `numIsZero` computes from the lexeme. -/

inductive Json where
  | null
  | bool (b : Bool)
  | num (lexeme : String)
  | str (s : String)
  | arr (elems : List Json)
  | obj (fields : List (String × Json))

/-- The only whitespace accepted by `JSON.parse` between tokens. -/
def isJsonWsC (c : Char) : Bool :=
  c = ' ' ∨ c = '\t' ∨ c = '\n' ∨ c = '\r'

/-- Drop leading JSON whitespace. -/
def skipWs (cs : List Char) : List Char :=
  cs.dropWhile isJsonWsC

/-- Value of one hexadecimal digit, as in a `\uXXXX` escape. -/
def hexVal (c : Char) : Option Nat :=
  if '0' ≤ c ∧ c ≤ '9' then some (c.toNat - 48)
  else if 'a' ≤ c ∧ c ≤ 'f' then some (c.toNat - 87)
  else if 'A' ≤ c ∧ c ≤ 'F' then some (c.toNat - 55)
  else none

/-- Body of a JSON string after the opening quote, producing the UTF-16 code
units of the decoded string (a raw character contributes its scalar value,
a `\uXXXX` escape contributes the unit `XXXX`); fails on an unterminated
string, an invalid escape, or an unescaped control character, exactly the
cases `JSON.parse` rejects. -/
def parseStringBody : List Char → List Nat → Option (List Nat × List Char)
  | [], _ => none
  | '"' :: rest, acc => some (acc.reverse, rest)
  | '\\' :: 'u' :: a :: b :: c :: d :: rest, acc =>
    match hexVal a, hexVal b, hexVal c, hexVal d with
    | some x1, some x2, some x3, some x4 =>
      parseStringBody rest ((((x1 * 16 + x2) * 16 + x3) * 16 + x4) :: acc)
    | _, _, _, _ => none
  | '\\' :: '"' :: rest, acc => parseStringBody rest (34 :: acc)
  | '\\' :: '\\' :: rest, acc => parseStringBody rest (92 :: acc)
  | '\\' :: '/' :: rest, acc => parseStringBody rest (47 :: acc)
  | '\\' :: 'b' :: rest, acc => parseStringBody rest (8 :: acc)
  | '\\' :: 'f' :: rest, acc => parseStringBody rest (12 :: acc)
  | '\\' :: 'n' :: rest, acc => parseStringBody rest (10 :: acc)
  | '\\' :: 'r' :: rest, acc => parseStringBody rest (13 :: acc)
  | '\\' :: 't' :: rest, acc => parseStringBody rest (9 :: acc)
  | '\\' :: _ :: _, _ => none
  | c :: rest, acc =>
    if c.toNat < 32 then none
    else parseStringBody rest (c.toNat :: acc)

/-- High half of a UTF-16 surrogate pair. -/
def isHighSur (u : Nat) : Bool := 0xD800 ≤ u ∧ u ≤ 0xDBFF

/-- Low half of a UTF-16 surrogate pair. -/
def isLowSur (u : Nat) : Bool := 0xDC00 ≤ u ∧ u ≤ 0xDFFF

/-- Combine UTF-16 code units back into characters: a surrogate pair becomes
the astral scalar it encodes.  A lone surrogate (which a JS string can hold
but a Lean `String` cannot) is replaced by U+FFFD; no value exchanged with
the Ollama protocol depends on lone surrogates. -/
def unitsToChars : List Nat → List Char
  | [] => []
  | [u] =>
    if isHighSur u ∨ isLowSur u then [Char.ofNat 0xFFFD] else [Char.ofNat u]
  | u :: l :: rest =>
    if isHighSur u then
      if isLowSur l then
        Char.ofNat (0x10000 + (u - 0xD800) * 0x400 + (l - 0xDC00)) :: unitsToChars rest
      else Char.ofNat 0xFFFD :: unitsToChars (l :: rest)
    else if isLowSur u then
      Char.ofNat 0xFFFD :: unitsToChars (l :: rest)
    else
      Char.ofNat u :: unitsToChars (l :: rest)

/-- Optional fraction part of a JSON number (`.` followed by at least one
digit, or nothing). -/
def parseFrac (cs : List Char) : Option (List Char × List Char) :=
  match cs with
  | '.' :: rest =>
    let ds := rest.takeWhile Char.isDigit
    if ds = [] then none else some ('.' :: ds, rest.dropWhile Char.isDigit)
  | _ => some ([], cs)

/-- Optional exponent part of a JSON number (`e`/`E`, optional sign, at least
one digit, or nothing). -/
def parseExp (cs : List Char) : Option (List Char × List Char) :=
  match cs with
  | e :: rest =>
    if e = 'e' ∨ e = 'E' then
      let (sg, rest2) :=
        match rest with
        | '+' :: r => (['+'], r)
        | '-' :: r => (['-'], r)
        | _ => ([], rest)
      let ds := rest2.takeWhile Char.isDigit
      if ds = [] then none
      else some (e :: (sg ++ ds), rest2.dropWhile Char.isDigit)
    else some ([], cs)
  | [] => some ([], [])

/-- Glue the integer part of a number lexeme to its fraction and exponent. -/
def matchFracExp (pre : List Char) (cs : List Char) : Option (List Char × List Char) :=
  match parseFrac cs with
  | none => none
  | some (f, rest2) =>
    match parseExp rest2 with
    | none => none
    | some (x, rest3) => some (pre ++ f ++ x, rest3)

/-- A JSON number lexeme: optional `-`, then `0` or a nonzero-led digit run,
then optional fraction and exponent.  Returns the lexeme and the rest. -/
def parseNumber (cs : List Char) : Option (List Char × List Char) :=
  let (sgn, cs1) :=
    match cs with
    | '-' :: rest => (['-'], rest)
    | _ => ([], cs)
  match cs1 with
  | c :: rest =>
    if c = '0' then
      matchFracExp (sgn ++ ['0']) rest
    else if c.isDigit then
      matchFracExp (sgn ++ (c :: rest).takeWhile Char.isDigit)
        ((c :: rest).dropWhile Char.isDigit)
    else none
  | [] => none

/-- Parsing mode of the recursive-descent loop: a single value, the elements
of an array after `[`, or the members of an object after `\x7b`. -/
inductive PMode where
  | val
  | elems (acc : List Json)
  | fields (acc : List (String × Json))

/-- Recursive-descent JSON parser, fuelled so that the recursion is
structural.  Object members are accumulated in source order, duplicates
included; `jsGetField` below gives the later duplicate precedence, as
`JSON.parse` does. -/
def parseJ : Nat → PMode → List Char → Option (Json × List Char)
  | 0, _, _ => none
  | fuel + 1, PMode.val, cs =>
    match skipWs cs with
    | 'n' :: 'u' :: 'l' :: 'l' :: rest => some (Json.null, rest)
    | 't' :: 'r' :: 'u' :: 'e' :: rest => some (Json.bool true, rest)
    | 'f' :: 'a' :: 'l' :: 's' :: 'e' :: rest => some (Json.bool false, rest)
    | '"' :: rest =>
      match parseStringBody rest [] with
      | some (us, rest2) => some (Json.str (String.mk (unitsToChars us)), rest2)
      | none => none
    | '[' :: rest =>
      match skipWs rest with
      | ']' :: rest2 => some (Json.arr [], rest2)
      | _ => parseJ fuel (PMode.elems []) rest
    | '\x7b' :: rest =>
      match skipWs rest with
      | '\x7d' :: rest2 => some (Json.obj [], rest2)
      | _ => parseJ fuel (PMode.fields []) rest
    | cs2 =>
      match parseNumber cs2 with
      | some (lex, rest) => some (Json.num (String.mk lex), rest)
      | none => none
  | fuel + 1, PMode.elems acc, cs =>
    match parseJ fuel PMode.val cs with
    | some (v, rest) =>
      match skipWs rest with
      | ',' :: rest2 => parseJ fuel (PMode.elems (v :: acc)) rest2
      | ']' :: rest2 => some (Json.arr (v :: acc).reverse, rest2)
      | _ => none
    | none => none
  | fuel + 1, PMode.fields acc, cs =>
    match skipWs cs with
    | '"' :: rest =>
      match parseStringBody rest [] with
      | some (us, rest2) =>
        match skipWs rest2 with
        | ':' :: rest3 =>
          match parseJ fuel PMode.val rest3 with
          | some (v, rest4) =>
            match skipWs rest4 with
            | ',' :: rest5 =>
              parseJ fuel (PMode.fields ((String.mk (unitsToChars us), v) :: acc)) rest5
            | '\x7d' :: rest5 =>
              some (Json.obj (((String.mk (unitsToChars us), v) :: acc).reverse), rest5)
            | _ => none
          | none => none
        | _ => none
      | none => none
    | _ => none

/-- `JSON.parse` on a character list: parse one value with enough fuel (each
recursive step either consumes input or is immediately followed by one that
does, so `2·length + 4` always suffices) and require that only whitespace
remains. -/
def jsonParse (l : List Char) : Option Json :=
  match parseJ (2 * l.length + 4) PMode.val l with
  | some (v, rest) => if skipWs rest = [] then some v else none
  | none => none

/-- Property access `j?.[k]` on a parsed JSON value: `none` models JS
`undefined` (absent key, or access on a non-object).  Since the parser keeps
duplicate members, the lookup takes the last match, which is the binding
`JSON.parse` would have kept. -/
def jsGetField (j : Json) (k : String) : Option Json :=
  match j with
  | Json.obj fs => (fs.reverse.find? (fun p => p.1 = k)).map (fun p => p.2)
  | _ => none

/-- Whether a JSON number lexeme denotes zero (all mantissa digits `0`), so
that JS would treat it as falsy. -/
def numIsZero (lex : String) : Bool :=
  let l :=
    match lex.data with
    | '-' :: r => r
    | r => r
  let mant := l.takeWhile (fun c => ¬(c = 'e' ∨ c = 'E'))
  (mant.filter (fun c => ¬(c = '.'))).all (fun c => c = '0')

/-- JavaScript truthiness of a parsed JSON value (`null`, `false`, `0`, `''`
are falsy; every object and array is truthy). -/
def jsTruthy : Json → Bool
  | Json.null => false
  | Json.bool b => b
  | Json.num lex => ¬(numIsZero lex = true)
  | Json.str s => ¬(s = "")
  | Json.arr _ => true
  | Json.obj _ => true

mutual

/-- JavaScript `String(v)` on a parsed JSON value.  A number is rendered as
its source lexeme (JS would re-canonicalise, e.g. `1e2` to `"100"`; the
difference is unexercised because every delta the stream handlers consume is
already a string). -/
def jsToString : Json → String
  | Json.null => "null"
  | Json.bool true => "true"
  | Json.bool false => "false"
  | Json.num lex => lex
  | Json.str s => s
  | Json.arr xs => jsToStringList xs
  | Json.obj _ => "[object Object]"

/-- Elements of an array joined by `,`, as `Array.prototype.toString` does. -/
def jsToStringList : List Json → String
  | [] => ""
  | [x] => jsToString x
  | x :: y :: xs => jsToString x ++ "," ++ jsToStringList (y :: xs)

end

/-! ### Model client: the streaming loop (background.ts 589-627)

The reader loop appends each decoded chunk to `buffer`, repeatedly splits a
complete line off at `\n`, trims it, skips it when blank, otherwise
`JSON.parse`s it and, when `obj?.message?.content || obj?.response || ''` is
truthy, appends the delta to `full` and invokes `onDelta(delta)`; a parse
failure is ignored.  After the stream ends the trimmed remainder of `buffer`
is processed the same way.  The state is the pending `buffer` plus the pair
`(full, deltas)`, where `deltas` records the `onDelta` invocations in
order. -/

/-- JavaScript short-circuit `a || b` on option-of-JSON values (`none` is
`undefined`). -/
def jsOrJ (a : Option Json) (b : Option Json) : Option Json :=
  match a with
  | some v => if jsTruthy v then some v else b
  | none => b

/-- What one newline-delimited fragment contributes: `none` when the trimmed
line is blank, fails to parse, or parses to a value whose extracted delta
`obj?.message?.content || obj?.response || ''` is falsy; otherwise the delta
string. -/
def lineDelta (rawLine : List Char) : Option String :=
  let line := jsTrimL rawLine
  if line = [] then none
  else
    match jsonParse line with
    | none => none
    | some obj =>
      let delta :=
        jsOrJ ((jsGetField obj "message").bind (fun m => jsGetField m "content"))
          (jsOrJ (jsGetField obj "response") (some (Json.str "")))
      match delta with
      | some v => if jsTruthy v then some (jsToString v) else none
      | none => none

/-- Process one fragment: on a truthy delta, `full += delta; onDelta(delta)`. -/
def procLine (fd : String × List String) (rawLine : List Char) : String × List String :=
  match lineDelta rawLine with
  | some d => (fd.1 ++ d, fd.2 ++ [d])
  | none => fd

/-- Loop state: the unconsumed `buffer` and the `(full, deltas)` output. -/
structure StreamAcc where
  buffer : List Char
  out : String × List String

/-- Split a character list into the complete (newline-terminated) lines and
the remainder after the last newline — the effect of the inner
`while ((idx = buffer.indexOf('\n')) >= 0)` loop. -/
def splitNl : List Char → List (List Char) × List Char
  | [] => ([], [])
  | c :: rest =>
    let s := splitNl rest
    if c = '\n' then ([] :: s.1, s.2)
    else
      match s.1 with
      | [] => ([], c :: s.2)
      | l :: ls => ((c :: l) :: ls, s.2)

/-- One iteration of the reader loop: append the decoded chunk to the buffer
and drain every complete line. -/
def feedChunk (acc : StreamAcc) (chunk : String) : StreamAcc :=
  let s := splitNl (acc.buffer ++ chunk.data)
  ⟨s.2, s.1.foldl procLine acc.out⟩

/-- The whole streaming loop on a list of decoded chunks, including the final
flush of the trimmed remainder (`procLine` already skips a blank remainder,
matching `if (buffer.trim())`).  Returns `(full, deltas)`. -/
def runStream (chunks : List String) : String × List String :=
  let acc := chunks.foldl feedChunk ⟨[], ("", [])⟩
  procLine acc.out acc.buffer

/-- Concatenation of the characters of all chunks, in arrival order. -/
def joinData : List String → List Char
  | [] => []
  | c :: cs => c.data ++ joinData cs

/-- Concatenation of a list of strings. -/
def concatStrs : List String → String
  | [] => ""
  | s :: ss => s ++ concatStrs ss

/-- The fragments the loop processes: the newline-terminated lines of the
chunk concatenation, plus the flushed remainder. -/
def streamLines (chunks : List String) : List (List Char) :=
  (splitNl (joinData chunks)).1 ++ [(splitNl (joinData chunks)).2]

/-- The deltas the loop emits, in order. -/
def streamEmitted (chunks : List String) : List String :=
  (streamLines chunks).filterMap lineDelta

/-- Number of fragments that are non-blank after trimming and that
`JSON.parse` accepts. -/
def parsedFragmentCount (chunks : List String) : Nat :=
  (streamLines chunks).countP
    (fun l => ¬(jsTrimL l = []) ∧ (jsonParse (jsTrimL l)).isSome)

/-! ### Model client: transport (background.ts 525-550, 568-593) -/

/-- Error thrown by the model client: `Ollama HTTP ${status}` on a
non-success response or a body-less stream, or a rejected `res.json()`. -/
inductive FetchErr where
  | http (status : Nat)
  | badJson
deriving DecidableEq

/-- The response `ollamaChat` observes: `res.ok`, `res.status`, and the value
of `await res.json()` (`none` when that promise rejects). -/
structure ChatHttp where
  ok : Bool
  status : Nat
  jsonBody : Option Json

/-- `ollamaChat` after the fetch: `if (!res.ok) throw new Error(...)`, then
`return data?.message?.content ?? ''` — nullish coalescing, so only a missing
or `null` field falls back to the empty string. -/
def ollamaChat (res : ChatHttp) : Except FetchErr String :=
  if res.ok = true then
    match res.jsonBody with
    | none => Except.error FetchErr.badJson
    | some data =>
      Except.ok
        (match (jsGetField data "message").bind (fun m => jsGetField m "content") with
         | some Json.null => ""
         | some v => jsToString v
         | none => "")
  else Except.error (FetchErr.http res.status)

/-- The response `ollamaChatStream` observes: `res.ok`, `res.status`, and the
decoded chunks of `res.body` (`none` when the body is absent). -/
structure StreamHttp where
  ok : Bool
  status : Nat
  body : Option (List String)

/-- `ollamaChatStream` after the fetch:
`if (!res.ok || !res.body) throw new Error(...)` (either failing disjunct
produces the same `Ollama HTTP ${status}` error), then the reader loop. -/
def ollamaChatStream (res : StreamHttp) : Except FetchErr (String × List String) :=
  if res.ok = true then
    match res.body with
    | none => Except.error (FetchErr.http res.status)
    | some chunks => Except.ok (runStream chunks)
  else Except.error (FetchErr.http res.status)

/-- The `onDelta` invocations a call produced (none when it threw). -/
def streamDeltas (r : Except FetchErr (String × List String)) : List String :=
  match r with
  | Except.ok p => p.2
  | Except.error _ => []

theorem splitNl_no_nl (l : List Char) (h : '\n' ∉ l) : splitNl l = ([], l) := by
  induction l with
  | nil => rfl
  | cons c rest ih =>
    have hc : ¬(c = '\n') := fun hx => h (hx ▸ List.mem_cons_self c rest)
    have hr : '\n' ∉ rest := fun hx => h (List.mem_cons_of_mem c hx)
    simp only [splitNl, ih hr, if_neg hc]

theorem splitNl_rem_no_nl (l : List Char) : '\n' ∉ (splitNl l).2 := by
  induction l with
  | nil => simp [splitNl]
  | cons c rest ih =>
    by_cases hc : c = '\n'
    · subst hc
      simp only [splitNl, if_pos rfl]
      exact ih
    · simp only [splitNl, if_neg hc]
      cases hs : (splitNl rest).1 with
      | nil =>
        intro hmem
        rcases List.mem_cons.mp hmem with h1 | h1
        · exact hc h1.symm
        · exact ih h1
      | cons l0 ls => exact ih

theorem splitNl_append (a b : List Char) :
    splitNl (a ++ b) =
      ((splitNl a).1 ++ (splitNl ((splitNl a).2 ++ b)).1,
       (splitNl ((splitNl a).2 ++ b)).2) := by
  induction a with
  | nil => simp [splitNl]
  | cons c a ih =>
    rcases h1 : splitNl a with ⟨la, ra⟩
    rcases h2 : splitNl (ra ++ b) with ⟨l2, r2⟩
    have ih' : splitNl (a ++ b) = (la ++ l2, r2) := by
      rw [ih, h1]; simp [h2]
    by_cases hc : c = '\n'
    · subst hc
      have e1 : splitNl ('\n' :: a) = ([] :: la, ra) := by
        simp [splitNl, h1]
      have e2 : splitNl ('\n' :: (a ++ b)) = ([] :: (la ++ l2), r2) := by
        simp [splitNl, ih']
      rw [List.cons_append, e2, e1]
      simp [h2]
    · cases la with
      | nil =>
        have e1 : splitNl (c :: a) = ([], c :: ra) := by
          simp [splitNl, h1, if_neg hc]
        cases l2 with
        | nil =>
          have e3 : splitNl (c :: (ra ++ b)) = ([], c :: r2) := by
            simp [splitNl, h2, if_neg hc]
          have e2 : splitNl (c :: (a ++ b)) = ([], c :: r2) := by
            simp [splitNl, ih', if_neg hc]
          rw [List.cons_append, e2, e1]
          simp only [List.nil_append]
          rw [List.cons_append, e3]
        | cons l0 ls0 =>
          have e3 : splitNl (c :: (ra ++ b)) = ((c :: l0) :: ls0, r2) := by
            simp [splitNl, h2, if_neg hc]
          have e2 : splitNl (c :: (a ++ b)) = ((c :: l0) :: ls0, r2) := by
            simp [splitNl, ih', if_neg hc]
          rw [List.cons_append, e2, e1]
          simp only [List.nil_append]
          rw [List.cons_append, e3]
      | cons l0 ls0 =>
        have e1 : splitNl (c :: a) = ((c :: l0) :: ls0, ra) := by
          simp [splitNl, h1, if_neg hc]
        have e2 : splitNl (c :: (a ++ b)) = ((c :: l0) :: (ls0 ++ l2), r2) := by
          simp only [splitNl, ih', List.cons_append]
          rw [if_neg hc]
        rw [List.cons_append, e2, e1]
        simp [h2]

theorem foldl_feedChunk (chunks : List String) (acc : StreamAcc)
    (h : '\n' ∉ acc.buffer) :
    chunks.foldl feedChunk acc =
      ⟨(splitNl (acc.buffer ++ joinData chunks)).2,
       (splitNl (acc.buffer ++ joinData chunks)).1.foldl procLine acc.out⟩ := by
  induction chunks generalizing acc with
  | nil =>
    cases acc with
    | mk buf out =>
      simp only [List.foldl_nil, joinData, List.append_nil]
      rw [splitNl_no_nl buf h]
      rfl
  | cons c cs ih =>
    have hb : '\n' ∉ (feedChunk acc c).buffer := splitNl_rem_no_nl _
    rw [List.foldl_cons, ih _ hb]
    show (⟨_, _⟩ : StreamAcc) = _
    simp only [feedChunk, joinData]
    rw [← List.append_assoc, splitNl_append (acc.buffer ++ c.data) (joinData cs),
      List.foldl_append]

theorem foldl_procLine (lines : List (List Char)) (fd : String × List String) :
    lines.foldl procLine fd =
      (fd.1 ++ concatStrs (lines.filterMap lineDelta),
       fd.2 ++ lines.filterMap lineDelta) := by
  induction lines generalizing fd with
  | nil =>
    cases fd with
    | mk f d =>
      simp only [List.foldl_nil, List.filterMap_nil, concatStrs, List.append_nil]
      show (f, d) = (f ++ "", d)
      cases f with
      | mk fl =>
        have : String.mk fl ++ "" = String.mk (fl ++ []) := rfl
        rw [this, List.append_nil]
  | cons l ls ih =>
    rw [List.foldl_cons]
    cases hd : lineDelta l with
    | none =>
      simp only [procLine, hd, List.filterMap_cons, ih]
    | some d =>
      simp only [procLine, hd, List.filterMap_cons, ih, Prod.mk.injEq]
      constructor
      · show (fd.1 ++ d) ++ concatStrs (ls.filterMap lineDelta) =
          fd.1 ++ (d ++ concatStrs (ls.filterMap lineDelta))
        cases fd.1 with
        | mk al =>
          cases d with
          | mk dl =>
            cases hcs : concatStrs (ls.filterMap lineDelta) with
            | mk cl =>
              show String.mk ((al ++ dl) ++ cl) = String.mk (al ++ (dl ++ cl))
              rw [List.append_assoc]
      · rw [List.append_assoc]
        rfl

/-- Sanity scenario from the spec: three streamed fragments carrying the
contents of a short LaTeX paragraph produce three deltas in order, and the
accumulated text is their concatenation. -/
theorem stream_scenario :
    runStream
      ["\x7b\"message\":\x7b\"content\":\"\\\\para\"\x7d\x7d\n",
       "\x7b\"message\":\x7b\"content\":\"graph\x7bStructure\x7d\"\x7d\x7d\n",
       "\x7b\"message\":\x7b\"content\":\" Good.\"\x7d\x7d\n"] =
      ("\\paragraph\x7bStructure\x7d Good.",
       ["\\para", "graph\x7bStructure\x7d", " Good."]) := by
  decide

/-- C1: on a successful streamed response, `ollamaChatStream` resolves with
the concatenation of exactly the deltas passed to `onDelta`, and those deltas
are, in arrival order, the contributions of the newline-delimited fragments
(the complete lines of the chunk stream plus the flushed remainder): a
fragment contributes its extracted delta — the value of
`obj?.message?.content || obj?.response || ''` — precisely when the trimmed
fragment is non-blank, `JSON.parse` accepts it, and that delta is truthy;
blank fragments, malformed fragments, and fragments whose delta is empty
contribute nothing and do not abort the stream.  (The original claim said
`onDelta` fires once for every successfully parsed fragment; a parsed
fragment with an empty delta, such as the final done-marker line, fires no
callback — see the counterexample.) -/
theorem C1_stream_spec (st : Nat) (chunks : List String) :
    ollamaChatStream ⟨true, st, some chunks⟩ =
      Except.ok (concatStrs (streamEmitted chunks), streamEmitted chunks) := by
  show Except.ok (runStream chunks) = _
  have key : runStream chunks = (streamLines chunks).foldl procLine ("", []) := by
    simp only [runStream, streamLines]
    rw [foldl_feedChunk chunks ⟨[], ("", [])⟩ (by simp)]
    simp only [List.nil_append]
    rw [List.foldl_append]
    rfl
  rw [key, foldl_procLine]
  rfl

/-- C1 counterexample: the single fragment stream consisting of the line
`\x7b"done":true\x7d` has one successfully parsed fragment, yet `onDelta` is
never invoked, because the extracted delta is the empty string. -/
theorem C1_counterexample :
    parsedFragmentCount ["\x7b\"done\":true\x7d\n"] = 1 ∧
    streamDeltas (ollamaChatStream ⟨true, 200, some ["\x7b\"done\":true\x7d\n"]⟩) = [] := by
  constructor
  · decide
  · decide

/-- C9: a non-success HTTP response makes `ollamaChat` fail with the
transport error carrying the response status, and a non-success response or
a body-less response makes `ollamaChatStream` fail with the same transport
error; in the failing case no deltas are delivered (`onDelta` is never
invoked) and no content string is returned — the result is the error, not an
`Except.ok`. -/
theorem C9_transport_error (r1 : ChatHttp) (r2 : StreamHttp) :
    (r1.ok = false → ollamaChat r1 = Except.error (FetchErr.http r1.status)) ∧
    ((r2.ok = false ∨ r2.body = none) →
      ollamaChatStream r2 = Except.error (FetchErr.http r2.status) ∧
      streamDeltas (ollamaChatStream r2) = []) := by
  constructor
  · intro h
    unfold ollamaChat
    rw [h]
    simp only [Bool.false_eq_true, if_false]
  · intro h
    have herr : ollamaChatStream r2 = Except.error (FetchErr.http r2.status) := by
      unfold ollamaChatStream
      rcases h with h | h
      · rw [h]
        simp only [Bool.false_eq_true, if_false]
      · rw [h]
        by_cases hok : r2.ok = true
        · rw [if_pos hok]
        · rw [if_neg hok]
    refine ⟨herr, ?_⟩
    rw [herr]
    rfl

theorem C9_witness :
    ollamaChat ⟨false, 500, none⟩ = Except.error (FetchErr.http 500) ∧
    ollamaChatStream ⟨false, 500, none⟩ = Except.error (FetchErr.http 500) ∧
    streamDeltas (ollamaChatStream ⟨false, 500, none⟩) = [] := by
  obtain ⟨h1, h2⟩ := C9_transport_error ⟨false, 500, none⟩ ⟨false, 500, none⟩
  exact ⟨h1 rfl, (h2 (Or.inl rfl)).1, (h2 (Or.inl rfl)).2⟩

end WriteTank
